import Mathlib

/-!
Verification of the version-catalog core of the smr-api repository:
a shallow embedding of the postgres version store functions
(`GetVersionsByID`, `GetModLatestVersions`, `GetModsLatestVersions`,
`GetModVersions`, `GetModVersionsNew`, `GetModVersion`,
`GetModVersionByName`, `CreateVersion`, `IncrementVersionDownloads`,
`GetVersion`, `GetVersions`, `GetVersionsNew`, `GetVersionCount`,
`GetVersionCountNew`, `GetVersionDependencies`) and of the HTTP node
`downloadVersion`, together with proofs about visibility filtering,
cache-key derivation, the read-through cache protocol, the rolling
24-hour creation throttle and the download-increment path.

The durable store is modelled as a list of rows, the process-local
`dbCache` as an association list from string keys to typed payloads,
and the redis short-window limiter as the set of already-admitted keys.
Timestamps are integer seconds.
-/

namespace SMR

/-- A row of the versions table; exactly the columns the embedded code reads:
id, mod_id, version, stability, approved, denied, downloads, created_at, key. -/
structure Version where
  id : String
  modID : String
  version : String
  stability : String
  approved : Bool
  denied : Bool
  downloads : Nat
  createdAt : Int
  key : String
  deriving DecidableEq

/-- A row of the version_dependencies table (queried by owning version id). -/
structure VersionDependency where
  versionID : String
  modID : String
  condition : String
  deriving DecidableEq

/-- A value stored in `dbCache`: the type assertions in the source read back a
single row, a row list, or a count. -/
inductive CVal where
  | one (v : Version)
  | rows (l : List Version)
  | cnt (n : Nat)
  deriving DecidableEq

/-- The process-local go-cache: key-value pairs, newest first.  Entries carry a
TTL in the source; no claim depends on expiry, so entries here never expire. -/
abbrev Cache := List (String × CVal)

def cacheGet (c : Cache) (k : String) : Option CVal :=
  match c with
  | [] => none
  | (k', v) :: rest => if k' == k then some v else cacheGet rest k

/-- `dbCache.Set`: overwrite semantics via shadowing (lookup returns the newest
entry for a key). -/
def cacheSet (c : Cache) (k : String) (v : CVal) : Cache := (k, v) :: c

/-- Go `fmt.Sprint` of a bool. -/
def boolStr (b : Bool) : String := if b then "true" else "false"

/-- Decimal digits of a natural number, most significant first; fuel-driven so
that it reduces in the kernel.  `fuel = n + 1` always suffices. -/
def natStrAux : Nat → Nat → List Char
  | 0, _ => []
  | fuel + 1, n =>
    if n < 10 then [Nat.digitChar n]
    else natStrAux fuel (n / 10) ++ [Nat.digitChar (n % 10)]

/-- Go `fmt.Sprint` of a non-negative int (the limits and offsets of the
embedded calls; see the spec, which requires limit positive and offset
non-negative). -/
def natStr (n : Nat) : String := ⟨natStrAux (n + 1) n⟩

/-- Go `strings.Join(xs, ":")`. -/
def joinColon : List String → String
  | [] => ""
  | [x] => x
  | x :: y :: ys => x ++ (":" ++ joinColon (y :: ys))

/-- Words of a character list, split on spaces (`[[]]` for the empty input,
like the lexeme list of an empty string). -/
def splitWords : List Char → List (List Char)
  | [] => [[]]
  | c :: rest =>
    match splitWords rest with
    | [] => [[c]]
    | w :: ws => if c = ' ' then [] :: w :: ws else (c :: w) :: ws

/-- Modelled from the spec: the store's full-text search collaborator.  The
source rewrites a multi-word search to `t1 & t2 & ...` and hands it to
`to_tsvector(version) @@ to_tsquery(...)`; the match holds iff every search
term is a lexeme of the version string. -/
def searchMatch (search : String) (v : Version) : Bool :=
  (splitWords search.data).all (fun t => (splitWords v.version.data).contains t)

/-- The visibility predicate every list/count query attaches:
`approved = !unapproved AND denied = false`. -/
def visible (unapproved : Bool) (v : Version) : Bool :=
  (v.approved == !unapproved) && (v.denied == false)

/-- Insert into a sorted list (the inner step of the sort the store performs
for an ORDER BY clause). -/
def insertLe (le : Version → Version → Bool) (a : Version) : List Version → List Version
  | [] => [a]
  | b :: rest => if le a b then a :: b :: rest else b :: insertLe le a rest

/-- Modelled from the spec: the store collaborator's ORDER BY, as a stable
insertion sort under the given comparison. -/
def insSort (le : Version → Version → Bool) : List Version → List Version
  | [] => []
  | a :: rest => insertLe le a (insSort le rest)

/-- Sort key of an ORDER BY column name.  The embedded calls order by
timestamp or download columns; any other column name collapses to a constant
key, which keeps the row order (the claims under proof never depend on it). -/
def fieldKey (orderBy : String) (v : Version) : Int :=
  if orderBy == "created_at" then v.createdAt
  else if orderBy == "downloads" then (v.downloads : Int)
  else 0

/-- Comparison for `Order(orderBy + " " + order)`. -/
def fieldLe (orderBy ord : String) (a b : Version) : Bool :=
  if ord == "desc" then fieldKey orderBy b ≤ fieldKey orderBy a
  else fieldKey orderBy a ≤ fieldKey orderBy b

/-- `ORDER BY created_at asc` of the rolling-window query. -/
def createdLe (a b : Version) : Bool := a.createdAt ≤ b.createdAt

/-- `ORDER BY mod_id, stability, created_at desc` of the latest-versions
queries. -/
def latestLe (a b : Version) : Bool :=
  if a.modID = b.modID then
    (if a.stability = b.stability then b.createdAt ≤ a.createdAt
     else decide (a.stability < b.stability))
  else decide (a.modID < b.modID)

/-- `SELECT distinct on (mod_id, stability) *`: keep the first row of each
(mod_id, stability) group of the sorted rows. -/
def distinctOnMS : List Version → List (String × String) → List Version
  | [], _ => []
  | v :: rest, seen =>
    if seen.contains (v.modID, v.stability) then distinctOnMS rest seen
    else v :: distinctOnMS rest ((v.modID, v.stability) :: seen)

/-- The Version filter the `...New` operations take (`models.VersionFilter`):
limit, offset, order column, order direction, optional search text, optional
field projection.  The source dereferences Limit/Offset/OrderBy/Order
unconditionally when the filter is present, so those are plain fields. -/
structure VersionFilter where
  limit : Nat
  offset : Nat
  orderBy : String
  order : String
  search : Option String
  fields : Option (List String)
  deriving DecidableEq

/-- Modelled from the spec: `filter.Hash()` of `models.VersionFilter`, whose
implementation is outside the visible source.  It is injected as a function
value; only its success or failure steers the embedded operations.  The spec:
a pure content hash of the descriptor's field values, failing only with an
EncodingError. -/
abbrev HashFn := Option VersionFilter → Except Unit String

/-- `SELECT` field projection: unselected columns come back as Go zero
values. -/
def projectFields (fs : List String) (v : Version) : Version :=
  { id := if fs.contains "id" then v.id else ""
    modID := if fs.contains "mod_id" then v.modID else ""
    version := if fs.contains "version" then v.version else ""
    stability := if fs.contains "stability" then v.stability else ""
    approved := fs.contains "approved" && v.approved
    denied := fs.contains "denied" && v.denied
    downloads := if fs.contains "downloads" then v.downloads else 0
    createdAt := if fs.contains "created_at" then v.createdAt else 0
    key := if fs.contains "key" then v.key else "" }

/-- The optional search predicate of a VersionFilter (applied only when the
search text is present and nonempty). -/
def searchOptPred (search : Option String) (v : Version) : Bool :=
  match search with
  | some s => s == "" || searchMatch s v
  | none => true

/-- Read-through wrapper for operations caching a row list: return the cached
list on a hit, else compute, store under the key, and return.  A cache entry
of the wrong shape cannot arise for keys these operations write; the wildcard
arm recomputes. -/
def cachedRows (c : Cache) (key : String) (compute : Unit → List Version) :
    List Version × Cache :=
  match cacheGet c key with
  | some (.rows l) => (l, c)
  | _ =>
    let versions := compute ()
    (versions, cacheSet c key (.rows versions))

/-- Read-through wrapper for operations caching a count. -/
def cachedCnt (c : Cache) (key : String) (compute : Unit → Nat) : Nat × Cache :=
  match cacheGet c key with
  | some (.cnt n) => (n, c)
  | _ =>
    let n := compute ()
    (n, cacheSet c key (.cnt n))

/-- Read-through wrapper for operations caching a single row.  `First` leaves
the zero struct when no row matches, which the source detects as
`version.ID == ""` and returns nil without caching. -/
def cachedRow (c : Cache) (key : String) (compute : Unit → Option Version) :
    Option Version × Cache :=
  match cacheGet c key with
  | some (.one v) => (some v, c)
  | _ =>
    match compute () with
    | none => (none, c)
    | some v => if v.id == "" then (none, c) else (some v, cacheSet c key (.one v))

/-- The store query of GetVersionsByID: `id in (?)`. -/
def GetVersionsByIDQuery (db : List Version) (versionIds : List String) : List Version :=
  db.filter (fun v => versionIds.contains v.id)

def getVersionsByIDKey (versionIds : List String) : String :=
  "GetVersionsById_" ++ joinColon versionIds

/-- `GetVersionsByID`: cached; returns nil (None) when the row count does not
match the requested id count, and caches only a complete result. -/
def GetVersionsByID (db : List Version) (c : Cache) (versionIds : List String) :
    Option (List Version) × Cache :=
  let cacheKey := getVersionsByIDKey versionIds
  match cacheGet c cacheKey with
  | some (.rows l) => (some l, c)
  | _ =>
    let versions := GetVersionsByIDQuery db versionIds
    if versionIds.length ≠ versions.length then (none, c)
    else (some versions, cacheSet c cacheKey (.rows versions))

/-- The store query of GetModLatestVersions: one row per (mod_id, stability)
class of the visible rows of one mod, most recent first. -/
def GetModLatestVersionsQuery (db : List Version) (modID : String) (unapproved : Bool) :
    List Version :=
  distinctOnMS (insSort latestLe (db.filter (fun v => (v.modID == modID) && visible unapproved v))) []

def getModLatestVersionsKey (modID : String) (unapproved : Bool) : String :=
  "GetModLatestVersions_" ++ (modID ++ ("_" ++ boolStr unapproved))

def GetModLatestVersions (db : List Version) (c : Cache) (modID : String)
    (unapproved : Bool) : List Version × Cache :=
  cachedRows c (getModLatestVersionsKey modID unapproved)
    (fun _ => GetModLatestVersionsQuery db modID unapproved)

/-- The store query of GetModsLatestVersions: `mod_id in (?)`. -/
def GetModsLatestVersionsQuery (db : List Version) (modIds : List String) (unapproved : Bool) :
    List Version :=
  distinctOnMS (insSort latestLe (db.filter (fun v => modIds.contains v.modID && visible unapproved v))) []

def getModsLatestVersionsKey (modIds : List String) (unapproved : Bool) : String :=
  "GetModsLatestVersions_" ++ (joinColon modIds ++ ("_" ++ boolStr unapproved))

def GetModsLatestVersions (db : List Version) (c : Cache) (modIds : List String)
    (unapproved : Bool) : List Version × Cache :=
  cachedRows c (getModsLatestVersionsKey modIds unapproved)
    (fun _ => GetModsLatestVersionsQuery db modIds unapproved)

/-- The store query of GetModVersions: visible rows of one mod, ordered,
offset, limited. -/
def GetModVersionsQuery (db : List Version) (modID : String) (limit offsetN : Nat)
    (orderBy ord : String) (unapproved : Bool) : List Version :=
  (((insSort (fieldLe orderBy ord)
      (db.filter (fun v => visible unapproved v && (v.modID == modID)))).drop offsetN).take limit)

def getModVersionsKey (modID : String) (limit offsetN : Nat) (orderBy ord : String)
    (unapproved : Bool) : String :=
  "GetModVersions_" ++ (modID ++ ("_" ++ (natStr limit ++ ("_" ++ (natStr offsetN ++
    ("_" ++ (orderBy ++ ("_" ++ (ord ++ ("_" ++ boolStr unapproved))))))))))

def GetModVersions (db : List Version) (c : Cache) (modID : String) (limit offsetN : Nat)
    (orderBy ord : String) (unapproved : Bool) : List Version × Cache :=
  cachedRows c (getModVersionsKey modID limit offsetN orderBy ord unapproved)
    (fun _ => GetModVersionsQuery db modID limit offsetN orderBy ord unapproved)

/-- The store query of GetModVersionsNew: like GetModVersions but driven by an
optional VersionFilter (no search, no projection in the source). -/
def GetModVersionsNewQuery (db : List Version) (modID : String)
    (filter : Option VersionFilter) (unapproved : Bool) : List Version :=
  match filter with
  | none => db.filter (fun v => visible unapproved v && (v.modID == modID))
  | some f =>
    (((insSort (fieldLe f.orderBy f.order)
        (db.filter (fun v => visible unapproved v && (v.modID == modID)))).drop f.offset).take f.limit)

def GetModVersionsNew (hashFn : HashFn) (db : List Version) (c : Cache) (modID : String)
    (filter : Option VersionFilter) (unapproved : Bool) : List Version × Cache :=
  match hashFn filter with
  | .error _ => (GetModVersionsNewQuery db modID filter unapproved, c)
  | .ok hash =>
    cachedRows c ("GetModVersionsNew_" ++ (modID ++ ("_" ++ (hash ++ ("_" ++ boolStr unapproved)))))
      (fun _ => GetModVersionsNewQuery db modID filter unapproved)

def GetModVersion (db : List Version) (c : Cache) (modID versionID : String) :
    Option Version × Cache :=
  cachedRow c ("GetModVersion_" ++ (modID ++ ("_" ++ versionID)))
    (fun _ => db.find? (fun v => (v.modID == modID) && (v.id == versionID)))

def GetModVersionByName (db : List Version) (c : Cache) (modID versionName : String) :
    Option Version × Cache :=
  cachedRow c ("GetModVersionByName_" ++ (modID ++ ("_" ++ versionName)))
    (fun _ => db.find? (fun v => (v.modID == modID) && (v.version == versionName)))

/-- Errors of the creation path. -/
inductive CreateError where
  | duplicate
  | rateLimit (waitMinutes : Int)
  deriving DecidableEq

/-- Minutes of a second count as Go prints `%.0f` of `Duration.Minutes()`:
rounded to the nearest whole minute, ties to even. -/
def displayMinutes (secs : Int) : Int :=
  let q := secs.fdiv 60
  let r := secs - 60 * q
  if r < 30 then q else if 30 < r then q + 1 else if q % 2 = 0 then q else q + 1

/-- The versions counted by the rolling 24-hour window:
`mod_id = ? AND created_at > now - 24h` — every version of the parent,
approved, unapproved or denied alike, strictly inside the trailing window. -/
def windowCounted (db : List Version) (modID : String) (now : Int) : List Version :=
  db.filter (fun v => (v.modID == modID) && decide (now - 86400 < v.createdAt))

/-- `CreateVersion`: duplicate-name check first, then the rolling 24-hour
window (reject at 5 or more, with minutes until the oldest counted version
leaves the window), else insert with a fresh id and the current timestamp.
`now` is the call instant; `newId` the value of `util.GenerateUniqueID()`. -/
def CreateVersion (db : List Version) (now : Int) (draft : Version) (newId : String) :
    Except CreateError (List Version) :=
  let dup := db.filter (fun v => (v.modID == draft.modID) && (v.version == draft.version))
  if 0 < dup.length then .error .duplicate
  else
    let versions := insSort createdLe (windowCounted db draft.modID now)
    if 5 ≤ versions.length then
      match versions.head? with
      | some oldest => .error (.rateLimit (displayMinutes (oldest.createdAt + 86400 - now)))
      | none => .error (.rateLimit 0)
    else
      .ok (db ++ [{ draft with id := newId, createdAt := now }])

/-- `IncrementVersionDownloads`: `Update("downloads", version.Downloads+1)` on
the row(s) with the id of the in-memory struct — the written value comes from
the struct, not from the stored row. -/
def IncrementVersionDownloads (db : List Version) (version : Version) : List Version :=
  db.map (fun w => if w.id == version.id then { w with downloads := version.downloads + 1 } else w)

def GetVersion (db : List Version) (c : Cache) (versionID : String) :
    Option Version × Cache :=
  cachedRow c ("GetVersion_" ++ versionID)
    (fun _ => db.find? (fun v => v.id == versionID))

/-- The store query of GetVersions: visible rows, optional search, ordered,
offset, limited.  The source adds the search clause only for a nonempty
search string. -/
def GetVersionsQuery (db : List Version) (limit offsetN : Nat) (orderBy ord search : String)
    (unapproved : Bool) : List Version :=
  (((insSort (fieldLe orderBy ord)
      (db.filter (fun v => visible unapproved v && (search == "" || searchMatch search v)))).drop
        offsetN).take limit)

/-- The store query of GetVersionsNew (optional filter with search and field
projection). -/
def GetVersionsNewQuery (db : List Version) (filter : Option VersionFilter)
    (unapproved : Bool) : List Version :=
  match filter with
  | none => db.filter (visible unapproved)
  | some f =>
    let rows :=
      (((insSort (fieldLe f.orderBy f.order)
          (db.filter (fun v => visible unapproved v && searchOptPred f.search v))).drop
            f.offset).take f.limit)
    match f.fields with
    | some fs => if 0 < fs.length then rows.map (projectFields fs) else rows
    | none => rows

def GetVersionsNew (hashFn : HashFn) (db : List Version) (c : Cache)
    (filter : Option VersionFilter) (unapproved : Bool) : List Version × Cache :=
  match hashFn filter with
  | .error _ => (GetVersionsNewQuery db filter unapproved, c)
  | .ok hash =>
    cachedRows c ("GetVersionsNew_" ++ (hash ++ ("_" ++ boolStr unapproved)))
      (fun _ => GetVersionsNewQuery db filter unapproved)

/-- The store query of GetVersionCount: count of visible, search-matching
rows. -/
def GetVersionCountQuery (db : List Version) (search : String) (unapproved : Bool) : Nat :=
  (db.filter (fun v => visible unapproved v && (search == "" || searchMatch search v))).length

/-- The store query of GetVersionCountNew: only the search part of the filter
applies to a count. -/
def GetVersionCountNewQuery (db : List Version) (filter : Option VersionFilter)
    (unapproved : Bool) : Nat :=
  (db.filter (fun v => visible unapproved v &&
    (match filter with
     | some f => searchOptPred f.search v
     | none => true))).length

def GetVersionCountNew (hashFn : HashFn) (db : List Version) (c : Cache)
    (filter : Option VersionFilter) (unapproved : Bool) : Nat × Cache :=
  match hashFn filter with
  | .error _ => (GetVersionCountNewQuery db filter unapproved, c)
  | .ok hash =>
    cachedCnt c ("GetVersionCountNew_" ++ (hash ++ ("_" ++ boolStr unapproved)))
      (fun _ => GetVersionCountNewQuery db filter unapproved)

/-- `GetVersionDependencies`: always a fresh store read (`version_id = ?`);
the source neither consults nor writes `dbCache` here. -/
def GetVersionDependencies (deps : List VersionDependency) (versionID : String) :
    List VersionDependency :=
  deps.filter (fun d => d.versionID == versionID)

/-- Modelled from the spec: `redis.CanIncrement` — the short-window limiter
store's atomic admit-at-most-once per (identity, action, key).  Expiry of the
4-hour window is outside every claim (all modelled calls fall inside one
window), so admitted keys never leave the set. -/
def CanIncrement (limiter : List (String × String × String)) (ip action key : String) :
    Bool × List (String × String × String) :=
  if limiter.contains (ip, action, key) then (false, limiter)
  else (true, (ip, action, key) :: limiter)

/-- Modelled from the spec: `storage.GenerateDownloadLink` — the blob-store
collaborator, a pure function of the object key producing the time-limited
URL. -/
def GenerateDownloadLink (key : String) : String := "objects/" ++ key

inductive DownloadResult where
  | notFound
  | redirect (url : String)
  deriving DecidableEq

/-- The process state the node handlers act on: durable store, `dbCache`,
redis limiter keys, dependency rows. -/
structure St where
  db : List Version
  cache : Cache
  limiter : List (String × String × String)
  deps : List VersionDependency
  deriving DecidableEq

/-- `downloadVersion` of nodes/version.go: resolve the version (404 when it
does not resolve, before any limiter or counter work); otherwise increment the
durable counter only when the limiter admits, and always redirect to the
download link. -/
def downloadVersion (s : St) (realIP versionID : String) : DownloadResult × St :=
  match GetVersion s.db s.cache versionID with
  | (none, c') => (.notFound, { s with cache := c' })
  | (some version, c') =>
    let adm := CanIncrement s.limiter realIP "download" ("version:" ++ versionID)
    let db' := if adm.1 then IncrementVersionDownloads s.db version else s.db
    (.redirect (GenerateDownloadLink version.key), { s with db := db', cache := c', limiter := adm.2 })

/-- State effect of a GetVersion request. -/
def stepGetVersion (s : St) (versionID : String) : St :=
  { s with cache := (GetVersion s.db s.cache versionID).2 }

def stepGetVersionsByID (s : St) (ids : List String) : St :=
  { s with cache := (GetVersionsByID s.db s.cache ids).2 }

def stepGetModLatestVersions (s : St) (modID : String) (u : Bool) : St :=
  { s with cache := (GetModLatestVersions s.db s.cache modID u).2 }

def stepGetModsLatestVersions (s : St) (modIds : List String) (u : Bool) : St :=
  { s with cache := (GetModsLatestVersions s.db s.cache modIds u).2 }

def stepGetModVersions (s : St) (modID : String) (limit offsetN : Nat)
    (orderBy ord : String) (u : Bool) : St :=
  { s with cache := (GetModVersions s.db s.cache modID limit offsetN orderBy ord u).2 }

def stepGetModVersionsNew (s : St) (hashFn : HashFn) (modID : String)
    (filter : Option VersionFilter) (u : Bool) : St :=
  { s with cache := (GetModVersionsNew hashFn s.db s.cache modID filter u).2 }

def stepGetModVersion (s : St) (modID versionID : String) : St :=
  { s with cache := (GetModVersion s.db s.cache modID versionID).2 }

def stepGetModVersionByName (s : St) (modID versionName : String) : St :=
  { s with cache := (GetModVersionByName s.db s.cache modID versionName).2 }

def stepGetVersionsNew (s : St) (hashFn : HashFn) (filter : Option VersionFilter)
    (u : Bool) : St :=
  { s with cache := (GetVersionsNew hashFn s.db s.cache filter u).2 }

def stepGetVersionCountNew (s : St) (hashFn : HashFn) (filter : Option VersionFilter)
    (u : Bool) : St :=
  { s with cache := (GetVersionCountNew hashFn s.db s.cache filter u).2 }

/-- State effect of a GetVersions request: the source function only reads the
store — it never touches `dbCache` — so the state is unchanged. -/
def stepGetVersions (s : St) (_limit _offsetN : Nat) (_orderBy _ord _search : String)
    (_u : Bool) : St := s

/-- State effect of a GetVersionCount request: a fresh store read, no cache
access in the source. -/
def stepGetVersionCount (s : St) (_search : String) (_u : Bool) : St := s

/-- State effect of a GetVersionDependencies request: always a fresh store
read. -/
def stepGetVersionDependencies (s : St) (_versionID : String) : St := s

/-- State effect of a CreateVersion request: the store insert on success,
nothing on rejection; `dbCache` is bypassed entirely. -/
def stepCreate (s : St) (now : Int) (draft : Version) (newId : String) : St :=
  match CreateVersion s.db now draft newId with
  | .ok db' => { s with db := db' }
  | .error _ => s

/-- One core operation, any arguments.  The `fresh` side condition of `create`
is the ID-generator collaborator contract (globally unique ids, modelled from
the spec). -/
inductive Step : St → St → Prop where
  | create (s : St) (now : Int) (draft : Version) (newId : String)
      (fresh : ∀ v ∈ s.db, v.id ≠ newId) : Step s (stepCreate s now draft newId)
  | download (s : St) (realIP versionID : String) :
      Step s (downloadVersion s realIP versionID).2
  | getVersion (s : St) (versionID : String) : Step s (stepGetVersion s versionID)
  | getVersionsByID (s : St) (ids : List String) : Step s (stepGetVersionsByID s ids)
  | getModLatestVersions (s : St) (modID : String) (u : Bool) :
      Step s (stepGetModLatestVersions s modID u)
  | getModsLatestVersions (s : St) (modIds : List String) (u : Bool) :
      Step s (stepGetModsLatestVersions s modIds u)
  | getModVersions (s : St) (modID : String) (limit offsetN : Nat)
      (orderBy ord : String) (u : Bool) :
      Step s (stepGetModVersions s modID limit offsetN orderBy ord u)
  | getModVersionsNew (s : St) (hashFn : HashFn) (modID : String)
      (filter : Option VersionFilter) (u : Bool) :
      Step s (stepGetModVersionsNew s hashFn modID filter u)
  | getModVersion (s : St) (modID versionID : String) :
      Step s (stepGetModVersion s modID versionID)
  | getModVersionByName (s : St) (modID versionName : String) :
      Step s (stepGetModVersionByName s modID versionName)
  | getVersionsNew (s : St) (hashFn : HashFn) (filter : Option VersionFilter) (u : Bool) :
      Step s (stepGetVersionsNew s hashFn filter u)
  | getVersionCountNew (s : St) (hashFn : HashFn) (filter : Option VersionFilter) (u : Bool) :
      Step s (stepGetVersionCountNew s hashFn filter u)
  | getVersions (s : St) (limit offsetN : Nat) (orderBy ord search : String) (u : Bool) :
      Step s (stepGetVersions s limit offsetN orderBy ord search u)
  | getVersionCount (s : St) (search : String) (u : Bool) :
      Step s (stepGetVersionCount s search u)
  | getVersionDependencies (s : St) (versionID : String) :
      Step s (stepGetVersionDependencies s versionID)

/-- A service process starts with a fresh cache and limiter over whatever the
durable store holds. -/
def initialState (db : List Version) (deps : List VersionDependency) : St :=
  ⟨db, [], [], deps⟩

/-- States reachable by a sequence of core operations. -/
inductive Reachable : St → St → Prop where
  | refl (s : St) : Reachable s s
  | tail {s t u : St} : Reachable s t → Step t u → Reachable s u

/-- The stored row of a version id (`First` on `id = ?`). -/
def findRow (db : List Version) (id : String) : Option Version :=
  db.find? (fun v => v.id == id)

/-- The state invariant behind counter monotonicity: every `dbCache` entry
under a `GetVersion_` key holds a row of the right id whose cached counter is
the stored counter or lags it by exactly the one pending best-effort
increment. -/
def Inv (s : St) : Prop :=
  ∀ id v, cacheGet s.cache ("GetVersion_" ++ id) = some (.one v) →
    v.id = id ∧ ∃ w, findRow s.db id = some w ∧
      (w.downloads = v.downloads ∨ w.downloads = v.downloads + 1)

/-! Basic lemmas about the sort used for ORDER BY. -/

theorem length_insertLe (le : Version → Version → Bool) (a : Version) :
    ∀ l : List Version, (insertLe le a l).length = l.length + 1 := by
  intro l
  induction l with
  | nil => rfl
  | cons b rest ih =>
    by_cases h : le a b = true
    · simp [insertLe, h]
    · simp [insertLe, h, ih]

theorem length_insSort (le : Version → Version → Bool) :
    ∀ l : List Version, (insSort le l).length = l.length := by
  intro l
  induction l with
  | nil => rfl
  | cons a rest ih => simp [insSort, length_insertLe, ih]

theorem mem_insertLe (le : Version → Version → Bool) (a x : Version) :
    ∀ l : List Version, x ∈ insertLe le a l ↔ x = a ∨ x ∈ l := by
  intro l
  induction l with
  | nil => simp [insertLe]
  | cons b rest ih =>
    by_cases h : le a b = true
    · simp [insertLe, h]
    · simp [insertLe, h, ih]; tauto

theorem mem_insSort (le : Version → Version → Bool) (x : Version) :
    ∀ l : List Version, x ∈ insSort le l ↔ x ∈ l := by
  intro l
  induction l with
  | nil => simp [insSort]
  | cons a rest ih => simp [insSort, mem_insertLe, ih]

/-- The head of the created_at-ascending sort is a minimum of the input. -/
theorem insSort_created_head_min :
    ∀ (l : List Version) (h : Version), (insSort createdLe l).head? = some h →
      h ∈ l ∧ ∀ x ∈ l, h.createdAt ≤ x.createdAt := by
  intro l
  induction l with
  | nil => intro h hh; simp [insSort] at hh
  | cons c rest ih =>
    intro h hh
    rw [insSort] at hh
    cases hsr : insSort createdLe rest with
    | nil =>
      rw [hsr] at hh
      simp [insertLe] at hh
      subst hh
      refine ⟨List.mem_cons_self _ _, ?_⟩
      intro x hx
      rcases List.mem_cons.mp hx with rfl | hx
      · omega
      · exact absurd ((mem_insSort createdLe x rest).mpr hx) (by simp [hsr])
    | cons b t =>
      rw [hsr] at hh
      by_cases hcb : createdLe c b = true
      · rw [insertLe, if_pos hcb] at hh
        simp at hh
        subst hh
        refine ⟨List.mem_cons_self _ _, ?_⟩
        intro x hx
        rcases List.mem_cons.mp hx with rfl | hx
        · omega
        · have hb := ih b (by rw [hsr]; rfl)
          have hxb := hb.2 x hx
          simp [createdLe] at hcb
          omega
      · rw [insertLe, if_neg hcb] at hh
        simp at hh
        subst hh
        have hb := ih b (by rw [hsr]; rfl)
        refine ⟨List.mem_cons_of_mem _ hb.1, ?_⟩
        intro x hx
        rcases List.mem_cons.mp hx with rfl | hx
        · simp [createdLe] at hcb
          omega
        · exact hb.2 x hx

/-! C2, C3, C5: the creation path. -/

/-- C2: CreateVersion counts all versions of the parent — approval and denial
state notwithstanding — created strictly inside the trailing 24-hour window
ending now; five or more counted versions reject with a rate-limit error, four
or fewer (without a duplicate name) admit; a version created one second after
now-24h is counted, one created one second before now-24h is not; the count is
invariant under arbitrary rewrites of the approval and denial flags. -/
theorem createVersion_rolling_window :
    ∀ (db : List Version) (now : Int) (draft : Version) (newId : String),
      (∀ v ∈ db, ¬(v.modID = draft.modID ∧ v.version = draft.version)) →
      (5 ≤ (windowCounted db draft.modID now).length →
        ∃ m, CreateVersion db now draft newId = .error (.rateLimit m))
      ∧ ((windowCounted db draft.modID now).length ≤ 4 →
        CreateVersion db now draft newId = .ok (db ++ [{ draft with id := newId, createdAt := now }]))
      ∧ (∀ v ∈ db, v.modID = draft.modID → v.createdAt = now - 86400 + 1 →
        v ∈ windowCounted db draft.modID now)
      ∧ (∀ v, v.createdAt = now - 86400 - 1 → v ∉ windowCounted db draft.modID now)
      ∧ (∀ f g : Version → Bool,
        (windowCounted (db.map (fun v => { v with approved := f v, denied := g v }))
          draft.modID now).length = (windowCounted db draft.modID now).length) := by
  intro db now draft newId hnodup
  have hdup : db.filter (fun v => (v.modID == draft.modID) && (v.version == draft.version)) = [] := by
    rw [List.filter_eq_nil_iff]
    intro v hv
    have := hnodup v hv
    simp only [Bool.and_eq_true, beq_iff_eq]
    tauto
  refine ⟨?_, ?_, ?_, ?_, ?_⟩
  · intro hcnt
    rw [CreateVersion]
    rw [hdup]
    simp only [List.length_nil, lt_irrefl, if_false]
    have hlen : (insSort createdLe (windowCounted db draft.modID now)).length
        = (windowCounted db draft.modID now).length := length_insSort _ _
    rw [if_pos (by omega)]
    cases hh : (insSort createdLe (windowCounted db draft.modID now)).head? with
    | none =>
      exfalso
      have : insSort createdLe (windowCounted db draft.modID now) = [] := by
        cases hsr : insSort createdLe (windowCounted db draft.modID now)
        · rfl
        · rw [hsr] at hh; simp at hh
      rw [this] at hlen
      simp at hlen
      omega
    | some oldest => exact ⟨_, rfl⟩
  · intro hcnt
    rw [CreateVersion]
    rw [hdup]
    simp only [List.length_nil, lt_irrefl, if_false]
    have hlen : (insSort createdLe (windowCounted db draft.modID now)).length
        = (windowCounted db draft.modID now).length := length_insSort _ _
    rw [if_neg (by omega)]
  · intro v hv hm hc
    rw [windowCounted, List.mem_filter]
    refine ⟨hv, ?_⟩
    simp only [Bool.and_eq_true, beq_iff_eq, decide_eq_true_eq]
    exact ⟨hm, by omega⟩
  · intro v hc hmem
    rw [windowCounted, List.mem_filter] at hmem
    simp only [Bool.and_eq_true, beq_iff_eq, decide_eq_true_eq] at hmem
    omega
  · intro f g
    rw [windowCounted, windowCounted, List.filter_map, List.length_map]
    rfl

/-- C3: a version with the same (parent, version string) pair as an existing
row is rejected as a duplicate, unconditionally — in particular before, and
regardless of, the rolling-window check; without a same-parent name clash the
duplicate rejection never fires (the same name under another parent is not a
duplicate). -/
theorem createVersion_duplicate_check :
    ∀ (db : List Version) (now : Int) (draft : Version) (newId : String),
      ((∃ v ∈ db, v.modID = draft.modID ∧ v.version = draft.version) →
        CreateVersion db now draft newId = .error .duplicate)
      ∧ ((∀ v ∈ db, ¬(v.modID = draft.modID ∧ v.version = draft.version)) →
        CreateVersion db now draft newId ≠ .error .duplicate) := by
  intro db now draft newId
  constructor
  · rintro ⟨v, hv, hm, hn⟩
    have hmem : v ∈ db.filter (fun v => (v.modID == draft.modID) && (v.version == draft.version)) := by
      rw [List.mem_filter]
      exact ⟨hv, by simp [hm, hn]⟩
    have hpos := List.length_pos_of_mem hmem
    rw [CreateVersion, if_pos hpos]
  · intro hno
    have hdup : db.filter (fun v => (v.modID == draft.modID) && (v.version == draft.version)) = [] := by
      rw [List.filter_eq_nil_iff]
      intro v hv
      have := hno v hv
      simp only [Bool.and_eq_true, beq_iff_eq]
      tauto
    rw [CreateVersion, hdup]
    simp only [List.length_nil, lt_irrefl, if_false]
    split
    · split
      · intro h; exact CreateError.noConfusion (Except.error.inj h)
      · intro h; exact CreateError.noConfusion (Except.error.inj h)
    · intro h; exact Except.noConfusion h

/-- C5: a rolling-window rejection carries the minutes until the oldest
counted version exits the window — the oldest counted version's creation
instant plus 24 hours minus now, rendered in whole minutes (round to nearest,
ties to even, as the %.0f display rounds). -/
theorem createVersion_rateLimit_payload :
    ∀ (db : List Version) (now : Int) (draft : Version) (newId : String),
      (∀ v ∈ db, ¬(v.modID = draft.modID ∧ v.version = draft.version)) →
      5 ≤ (windowCounted db draft.modID now).length →
      ∃ oldest, oldest ∈ windowCounted db draft.modID now
        ∧ (∀ v ∈ windowCounted db draft.modID now, oldest.createdAt ≤ v.createdAt)
        ∧ CreateVersion db now draft newId
            = .error (.rateLimit (displayMinutes (oldest.createdAt + 86400 - now))) := by
  intro db now draft newId hnodup hcnt
  have hdup : db.filter (fun v => (v.modID == draft.modID) && (v.version == draft.version)) = [] := by
    rw [List.filter_eq_nil_iff]
    intro v hv
    have := hnodup v hv
    simp only [Bool.and_eq_true, beq_iff_eq]
    tauto
  have hlen : (insSort createdLe (windowCounted db draft.modID now)).length
      = (windowCounted db draft.modID now).length := length_insSort _ _
  cases hh : (insSort createdLe (windowCounted db draft.modID now)).head? with
  | none =>
    exfalso
    have : insSort createdLe (windowCounted db draft.modID now) = [] := by
      cases hsr : insSort createdLe (windowCounted db draft.modID now)
      · rfl
      · rw [hsr] at hh; simp at hh
    rw [this] at hlen
    simp at hlen
    omega
  | some oldest =>
    obtain ⟨hmem, hmin⟩ := insSort_created_head_min _ _ hh
    refine ⟨oldest, hmem, hmin, ?_⟩
    rw [CreateVersion, hdup]
    simp only [List.length_nil, lt_irrefl, if_false]
    rw [if_pos (by omega), hh]

/-- A sample approved, non-denied row. -/
def mkV (id modID ver : String) (created : Int) : Version :=
  ⟨id, modID, ver, "release", true, false, 0, created, "key-" ++ id⟩

/-- Five versions of mod "m" created inside the last 24 hours of instant
90000. -/
def db5 : List Version :=
  [mkV "v1" "m" "1.0.0" 5000, mkV "v2" "m" "1.0.1" 5001, mkV "v3" "m" "1.0.2" 5002,
   mkV "v4" "m" "1.0.3" 5003, mkV "v5" "m" "1.0.4" 5004]

/-- Four versions of mod "m" created inside the last 24 hours of instant
90000. -/
def db4 : List Version :=
  [mkV "v1" "m" "1.0.0" 5000, mkV "v2" "m" "1.0.1" 5001, mkV "v3" "m" "1.0.2" 5002,
   mkV "v4" "m" "1.0.3" 5003]

/-- Concrete instantiation of the rolling-window theorem: five recent versions
reject, four admit. -/
theorem createVersion_rolling_window_witness :
    (∃ m, CreateVersion db5 90000 (mkV "" "m" "2.0.0" 0) "v6" = .error (.rateLimit m))
    ∧ CreateVersion db4 90000 (mkV "" "m" "2.0.0" 0) "v5"
        = .ok (db4 ++ [{ mkV "" "m" "2.0.0" 0 with id := "v5", createdAt := 90000 }]) :=
  ⟨(createVersion_rolling_window db5 90000 (mkV "" "m" "2.0.0" 0) "v6" (by decide)).1
      (by decide),
   (createVersion_rolling_window db4 90000 (mkV "" "m" "2.0.0" 0) "v5" (by decide)).2.1
      (by decide)⟩

/-- Concrete instantiation of the duplicate-check theorem: a same-parent name
clash rejects even though the parent is over quota; the same name under a
different parent is not a duplicate. -/
theorem createVersion_duplicate_check_witness :
    CreateVersion db5 90000 (mkV "" "m" "1.0.0" 0) "v6" = .error .duplicate
    ∧ CreateVersion db5 90000 (mkV "" "other" "1.0.0" 0) "v6" ≠ .error .duplicate :=
  ⟨(createVersion_duplicate_check db5 90000 (mkV "" "m" "1.0.0" 0) "v6").1
      ⟨mkV "v1" "m" "1.0.0" 5000, by decide, by decide, by decide⟩,
   (createVersion_duplicate_check db5 90000 (mkV "" "other" "1.0.0" 0) "v6").2
      (by decide)⟩

/-- Concrete instantiation of the rate-limit payload theorem. -/
theorem createVersion_rateLimit_payload_witness :
    ∃ oldest, oldest ∈ windowCounted db5 "m" 90000
      ∧ (∀ v ∈ windowCounted db5 "m" 90000, oldest.createdAt ≤ v.createdAt)
      ∧ CreateVersion db5 90000 (mkV "" "m" "2.0.0" 0) "v6"
          = .error (.rateLimit (displayMinutes (oldest.createdAt + 86400 - 90000))) :=
  createVersion_rateLimit_payload db5 90000 (mkV "" "m" "2.0.0" 0) "v6" (by decide) (by decide)

/-! C1: the visibility predicate of the list/count operations. -/

theorem mem_distinctOnMS :
    ∀ (l : List Version) (seen : List (String × String)) (x : Version),
      x ∈ distinctOnMS l seen → x ∈ l := by
  intro l
  induction l with
  | nil => intro seen x hx; simp [distinctOnMS] at hx
  | cons v rest ih =>
    intro seen x hx
    rw [distinctOnMS] at hx
    by_cases h : seen.contains (v.modID, v.stability) = true
    · rw [if_pos h] at hx
      exact List.mem_cons_of_mem _ (ih _ _ hx)
    · rw [if_neg h] at hx
      rcases List.mem_cons.mp hx with rfl | hx
      · exact List.mem_cons_self _ _
      · exact List.mem_cons_of_mem _ (ih _ _ hx)

/-- Every row a sorted, offset, limited store query returns satisfies the
query's WHERE predicate. -/
theorem pred_of_mem_query (le : Version → Version → Bool) (p : Version → Bool)
    (db : List Version) (n m : Nat) (v : Version)
    (hv : v ∈ ((insSort le (db.filter p)).drop m).take n) : p v = true := by
  have h1 := List.mem_of_mem_take hv
  have h2 := List.mem_of_mem_drop h1
  have h3 := (mem_insSort le v _).mp h2
  exact (List.mem_filter.mp h3).2

/-- C1 counterexample: an approved, non-denied row vanishes from ListVersions
once includeUnapproved is set, even with a limit beyond the store size — the
flag does not merely relax the visibility predicate. -/
theorem visibility_not_relaxed_counterexample :
    (mkV "v1" "m" "1.0.0" 1000).approved = true
    ∧ (mkV "v1" "m" "1.0.0" 1000).denied = false
    ∧ ([mkV "v1" "m" "1.0.0" 1000] : List Version).length ≤ 10
    ∧ GetVersionsQuery [mkV "v1" "m" "1.0.0" 1000] 10 0 "created_at" "asc" "" true = [] := by
  decide

/-- C1 (amended): each list/count operation's predicate is
`approved = !includeUnapproved AND denied = false` — with the flag clear only
approved, non-denied rows are visible (never a row with approved=false or
denied=true); with the flag set the approval test is toggled, not relaxed, so
exactly the unapproved non-denied rows are visible and approved rows are not;
with zero offset and a limit at least the store size every matching row is
returned, and the count operation counts exactly the rows the list operation
then returns. -/
theorem visibility_predicate_toggle :
    ∀ (db : List Version) (limit offsetN : Nat) (orderBy ord search : String) (u : Bool)
      (modID : String) (modIds : List String),
      (∀ v ∈ GetVersionsQuery db limit offsetN orderBy ord search u,
        v.approved = !u ∧ v.denied = false)
      ∧ (∀ v ∈ GetModVersionsQuery db modID limit offsetN orderBy ord u,
        v.approved = !u ∧ v.denied = false)
      ∧ (∀ v ∈ GetModLatestVersionsQuery db modID u, v.approved = !u ∧ v.denied = false)
      ∧ (∀ v ∈ GetModsLatestVersionsQuery db modIds u, v.approved = !u ∧ v.denied = false)
      ∧ GetVersionCountQuery db search u
          = (GetVersionsQuery db db.length 0 orderBy ord search u).length
      ∧ (offsetN = 0 → db.length ≤ limit →
        ∀ v ∈ db, v.approved = !u → v.denied = false →
          (search == "" || searchMatch search v) = true →
          v ∈ GetVersionsQuery db limit offsetN orderBy ord search u) := by
  intro db limit offsetN orderBy ord search u modID modIds
  refine ⟨?_, ?_, ?_, ?_, ?_, ?_⟩
  · intro v hv
    have hp := pred_of_mem_query _ _ _ _ _ _ hv
    simp only [Bool.and_eq_true, visible, beq_iff_eq, Bool.or_eq_true] at hp
    exact ⟨hp.1.1, hp.1.2⟩
  · intro v hv
    have hp := pred_of_mem_query _ _ _ _ _ _ hv
    simp only [Bool.and_eq_true, visible, beq_iff_eq] at hp
    exact ⟨hp.1.1, hp.1.2⟩
  · intro v hv
    have h1 := mem_distinctOnMS _ _ _ hv
    have h2 := (mem_insSort latestLe v _).mp h1
    have hp := (List.mem_filter.mp h2).2
    simp only [Bool.and_eq_true, visible, beq_iff_eq] at hp
    exact ⟨hp.2.1, hp.2.2⟩
  · intro v hv
    have h1 := mem_distinctOnMS _ _ _ hv
    have h2 := (mem_insSort latestLe v _).mp h1
    have hp := (List.mem_filter.mp h2).2
    simp only [Bool.and_eq_true, visible, beq_iff_eq] at hp
    exact ⟨hp.2.1, hp.2.2⟩
  · rw [GetVersionCountQuery, GetVersionsQuery, List.drop_zero]
    rw [List.take_of_length_le]
    · rw [length_insSort]
    · rw [length_insSort]
      exact le_trans (List.length_filter_le _ _) (le_refl _)
  · intro hoff hlim v hv hap hde hse
    subst hoff
    have hmem : v ∈ db.filter
        (fun v => visible u v && (search == "" || searchMatch search v)) := by
      rw [List.mem_filter]
      exact ⟨hv, by simp [visible, hap, hde, hse]⟩
    have hsorted := (mem_insSort (fieldLe orderBy ord) v _).mpr hmem
    rw [GetVersionsQuery, List.drop_zero, List.take_of_length_le]
    · exact hsorted
    · rw [length_insSort]
      exact le_trans (List.length_filter_le _ _) hlim

/-- A sample unapproved, non-denied row. -/
def vUnapp : Version := ⟨"v2", "m", "1.1.0", "release", false, false, 0, 1500, "key-v2"⟩

/-- Concrete instantiation of the visibility theorem: with the flag set, the
unapproved row of a two-row store is returned and satisfies the toggled
predicate. -/
theorem visibility_predicate_toggle_witness :
    vUnapp ∈ GetVersionsQuery [mkV "v1" "m" "1.0.0" 1000, vUnapp] 10 0 "created_at" "asc" "" true
    ∧ (vUnapp.approved = !true ∧ vUnapp.denied = false) :=
  ⟨(visibility_predicate_toggle [mkV "v1" "m" "1.0.0" 1000, vUnapp] 10 0 "created_at" "asc"
      "" true "m" []).2.2.2.2.2 rfl (by decide) vUnapp (by decide) (by decide) (by decide)
      (by decide),
   (visibility_predicate_toggle [mkV "v1" "m" "1.0.0" 1000, vUnapp] 10 0 "created_at" "asc"
      "" true "m" []).1 vUnapp (by decide)⟩

/-! C9: GetVersionsByID is all-or-nothing. -/

/-- C9: on a cache miss, GetVersionsByID returns nil — and writes nothing to
the cache — whenever the store row count differs from the requested id count;
only a result matching the request one-for-one is cached and returned.  With
store ids unique (the store invariant), a repeated input id or an id with no
row forces the nil outcome. -/
theorem getVersionsByID_all_or_nothing :
    ∀ (db : List Version) (c : Cache) (ids : List String),
      cacheGet c (getVersionsByIDKey ids) = none →
      ((GetVersionsByIDQuery db ids).length ≠ ids.length →
        GetVersionsByID db c ids = (none, c))
      ∧ ((GetVersionsByIDQuery db ids).length = ids.length →
        GetVersionsByID db c ids
          = (some (GetVersionsByIDQuery db ids),
            cacheSet c (getVersionsByIDKey ids) (.rows (GetVersionsByIDQuery db ids))))
      ∧ ((db.map (fun v => v.id)).Nodup →
        (¬ids.Nodup ∨ ∃ m ∈ ids, m ∉ db.map (fun v => v.id)) →
        GetVersionsByID db c ids = (none, c)) := by
  intro db c ids hc
  have hbase : ∀ h : (GetVersionsByIDQuery db ids).length ≠ ids.length,
      GetVersionsByID db c ids = (none, c) := by
    intro h
    rw [GetVersionsByID]
    simp only [hc]
    rw [if_pos (Ne.symm h)]
  refine ⟨hbase, ?_, ?_⟩
  · intro h
    rw [GetVersionsByID]
    simp only [hc]
    rw [if_neg (by omega)]
  · intro hdbn hbad
    apply hbase
    apply Nat.ne_of_lt
    have hsub : ((GetVersionsByIDQuery db ids).map (fun v => v.id)).Sublist
        (db.map (fun v => v.id)) := List.Sublist.map _ (List.filter_sublist db)
    have hrowsnd : ((GetVersionsByIDQuery db ids).map (fun v => v.id)).Nodup :=
      List.Nodup.sublist hsub hdbn
    have hrowids : ∀ x ∈ (GetVersionsByIDQuery db ids).map (fun v => v.id),
        x ∈ ids ∧ x ∈ db.map (fun v => v.id) := by
      intro x hx
      rcases List.mem_map.mp hx with ⟨v, hv, rfl⟩
      rcases List.mem_filter.mp hv with ⟨hvdb, hvp⟩
      constructor
      · simpa using hvp
      · exact List.mem_map.mpr ⟨v, hvdb, rfl⟩
    have hlenrows : (GetVersionsByIDQuery db ids).length
        = ((GetVersionsByIDQuery db ids).map (fun v => v.id)).toFinset.card := by
      rw [List.toFinset_card_of_nodup hrowsnd, List.length_map]
    rcases hbad with hnod | ⟨m, hmids, hmdb⟩
    · have hcard : ((GetVersionsByIDQuery db ids).map (fun v => v.id)).toFinset ⊆ ids.toFinset := by
        intro x hx
        exact List.mem_toFinset.mpr (hrowids x (List.mem_toFinset.mp hx)).1
      have hlt : ids.toFinset.card < ids.length := by
        rw [List.card_toFinset]
        have hs : ids.dedup.Sublist ids := List.dedup_sublist ids
        rcases lt_or_eq_of_le hs.length_le with h | h
        · exact h
        · exact absurd (List.dedup_eq_self.mp (hs.eq_of_length h)) hnod
      calc (GetVersionsByIDQuery db ids).length
          = ((GetVersionsByIDQuery db ids).map (fun v => v.id)).toFinset.card := hlenrows
        _ ≤ ids.toFinset.card := Finset.card_le_card hcard
        _ < ids.length := hlt
    · have hcard : ((GetVersionsByIDQuery db ids).map (fun v => v.id)).toFinset
          ⊆ ids.toFinset.erase m := by
        intro x hx
        have hx' := hrowids x (List.mem_toFinset.mp hx)
        refine Finset.mem_erase.mpr ⟨?_, List.mem_toFinset.mpr hx'.1⟩
        intro hxm
        exact hmdb (hxm ▸ hx'.2)
      calc (GetVersionsByIDQuery db ids).length
          = ((GetVersionsByIDQuery db ids).map (fun v => v.id)).toFinset.card := hlenrows
        _ ≤ (ids.toFinset.erase m).card := Finset.card_le_card hcard
        _ < ids.toFinset.card := Finset.card_erase_lt_of_mem (List.mem_toFinset.mpr hmids)
        _ ≤ ids.length := ids.toFinset_card_le

/-- Concrete instantiation of the all-or-nothing theorem: a complete request
is returned and cached; a request with a missing id returns nil and leaves the
cache alone. -/
theorem getVersionsByID_all_or_nothing_witness :
    GetVersionsByID [mkV "v1" "m" "1.0.0" 1000] [] ["v1"]
      = (some (GetVersionsByIDQuery [mkV "v1" "m" "1.0.0" 1000] ["v1"]),
        cacheSet [] (getVersionsByIDKey ["v1"])
          (.rows (GetVersionsByIDQuery [mkV "v1" "m" "1.0.0" 1000] ["v1"])))
    ∧ GetVersionsByID [mkV "v1" "m" "1.0.0" 1000] [] ["v1", "zz"] = (none, []) :=
  ⟨(getVersionsByID_all_or_nothing [mkV "v1" "m" "1.0.0" 1000] [] ["v1"] rfl).2.1 (by decide),
   (getVersionsByID_all_or_nothing [mkV "v1" "m" "1.0.0" 1000] [] ["v1", "zz"] rfl).1
      (by decide)⟩

/-! C10: hash failure on the filtered reads. -/

/-- C10: when hashing the filter fails, GetVersionsNew, GetVersionCountNew and
GetModVersionsNew still run the store query and return the fresh result, with
no cache read and no cache write, and the hashing error never reaches the
caller (the operations return plain results). -/
theorem filteredReads_hashFailure_fresh :
    ∀ (hashFn : HashFn) (db : List Version) (c : Cache) (filter : Option VersionFilter)
      (u : Bool) (modID : String),
      hashFn filter = .error () →
      GetVersionsNew hashFn db c filter u = (GetVersionsNewQuery db filter u, c)
      ∧ GetVersionCountNew hashFn db c filter u = (GetVersionCountNewQuery db filter u, c)
      ∧ GetModVersionsNew hashFn db c modID filter u
          = (GetModVersionsNewQuery db modID filter u, c) := by
  intro hashFn db c filter u modID herr
  refine ⟨?_, ?_, ?_⟩
  · rw [GetVersionsNew, herr]
  · rw [GetVersionCountNew, herr]
  · rw [GetModVersionsNew, herr]

/-- Concrete instantiation of the hash-failure theorem. -/
theorem filteredReads_hashFailure_fresh_witness :
    GetVersionsNew (fun _ => .error ()) [] [] none false = (GetVersionsNewQuery [] none false, [])
    ∧ GetVersionCountNew (fun _ => .error ()) [] [] none false
        = (GetVersionCountNewQuery [] none false, [])
    ∧ GetModVersionsNew (fun _ => .error ()) [] [] "m" none false
        = (GetModVersionsNewQuery [] "m" none false, []) :=
  filteredReads_hashFailure_fresh (fun _ => .error ()) [] [] none false "m" rfl

/-! C6: cache-key derivation. -/

theorem strExt {s t : String} (h : s.data = t.data) : s = t := by
  cases s; cases t; simp_all

/-- Splitting at a separator character neither side contains is unambiguous. -/
theorem sep_split (sep : Char) :
    ∀ (a b xs ys : List Char), sep ∉ a → sep ∉ b →
      a ++ sep :: xs = b ++ sep :: ys → a = b ∧ xs = ys := by
  intro a
  induction a with
  | nil =>
    intro b xs ys _ hb h
    cases b with
    | nil => simpa using h
    | cons c t =>
      simp at h
      exact absurd (List.mem_cons_self c t) (by rw [← h.1] at hb ⊢; exact hb)
  | cons c t ih =>
    intro b xs ys ha hb h
    cases b with
    | nil =>
      simp at h
      exact absurd (List.mem_cons_self c t) (by rw [h.1] at ha ⊢; exact ha)
    | cons d u =>
      simp at h
      obtain ⟨rfl, h2⟩ := h
      have ha' : sep ∉ t := fun hx => ha (List.mem_cons_of_mem _ hx)
      have hb' : sep ∉ u := fun hx => hb (List.mem_cons_of_mem _ hx)
      obtain ⟨rfl, rfl⟩ := ih u xs ys ha' hb' h2
      exact ⟨rfl, rfl⟩

/-- String form of the separator split, for a one-character separator. -/
theorem strSep_split (sep : Char) (sepS : String) (hsep : sepS.data = [sep])
    (a b xs ys : String) (ha : sep ∉ a.data) (hb : sep ∉ b.data)
    (h : a ++ (sepS ++ xs) = b ++ (sepS ++ ys)) : a = b ∧ xs = ys := by
  have hd : a.data ++ sep :: xs.data = b.data ++ sep :: ys.data := by
    have h0 := congrArg String.data h
    simpa [String.data_append, hsep] using h0
  obtain ⟨h1, h2⟩ := sep_split sep _ _ _ _ ha hb hd
  exact ⟨strExt h1, strExt h2⟩

theorem strAppend_left_cancel {p x y : String} (h : p ++ x = p ++ y) : x = y := by
  have hd := congrArg String.data h
  simp [String.data_append] at hd
  exact strExt hd

/-- Distinct characters inside two literal prefixes force the concatenations
apart. -/
theorem strPrefix_ne (p₁ p₂ : String) (k : Nat)
    (h₁ : k < p₁.data.length) (h₂ : k < p₂.data.length)
    (hne : p₁.data[k]? ≠ p₂.data[k]?) :
    ∀ x y : String, p₁ ++ x ≠ p₂ ++ y := by
  intro x y h
  apply hne
  have hd : p₁.data ++ x.data = p₂.data ++ y.data := by
    have h0 := congrArg String.data h
    simpa [String.data_append] using h0
  have e₁ : (p₁.data ++ x.data)[k]? = p₁.data[k]? := List.getElem?_append_left h₁
  have e₂ : (p₂.data ++ y.data)[k]? = p₂.data[k]? := List.getElem?_append_left h₂
  rw [← e₁, ← e₂, hd]

theorem digitChar_ne_sep : ∀ m : Nat, m < 10 →
    Nat.digitChar m ≠ '_' ∧ Nat.digitChar m ≠ ':' := by
  intro m h
  interval_cases m <;> exact ⟨by decide, by decide⟩

theorem natStrAux_no_sep : ∀ fuel n : Nat, ∀ c ∈ natStrAux fuel n, c ≠ '_' ∧ c ≠ ':' := by
  intro fuel
  induction fuel with
  | zero => intro n c hc; simp [natStrAux] at hc
  | succ f ih =>
    intro n c hc
    rw [natStrAux] at hc
    by_cases h : n < 10
    · rw [if_pos h] at hc
      simp at hc
      subst hc
      exact digitChar_ne_sep n h
    · rw [if_neg h] at hc
      rcases List.mem_append.mp hc with hc | hc
      · exact ih _ c hc
      · simp at hc
        subst hc
        exact digitChar_ne_sep _ (Nat.mod_lt _ (by omega))

theorem natStr_no_sep (n : Nat) : '_' ∉ (natStr n).data ∧ ':' ∉ (natStr n).data :=
  ⟨fun h => (natStrAux_no_sep _ _ _ h).1 rfl, fun h => (natStrAux_no_sep _ _ _ h).2 rfl⟩

/-- Numeric value of a decimal digit character. -/
def digitVal (c : Char) : Nat := c.toNat - 48

/-- Decimal reading, the left inverse of the rendering. -/
def parseNat (l : List Char) : Nat := l.foldl (fun a c => a * 10 + digitVal c) 0

theorem digitVal_digitChar : ∀ m : Nat, m < 10 → digitVal (Nat.digitChar m) = m := by
  intro m h
  interval_cases m <;> decide

theorem parse_natStrAux : ∀ fuel n : Nat, n < fuel → parseNat (natStrAux fuel n) = n := by
  intro fuel
  induction fuel with
  | zero => intro n h; exact absurd h (Nat.not_lt_zero n)
  | succ f ih =>
    intro n h
    rw [natStrAux]
    by_cases h10 : n < 10
    · rw [if_pos h10]
      show 0 * 10 + digitVal (Nat.digitChar n) = n
      rw [digitVal_digitChar n h10]
      omega
    · rw [if_neg h10]
      have hdiv : n / 10 < n := Nat.div_lt_self (by omega) (by omega)
      have hrec : parseNat (natStrAux f (n / 10)) = n / 10 := ih _ (by omega)
      have hstep : parseNat (natStrAux f (n / 10) ++ [Nat.digitChar (n % 10)])
          = parseNat (natStrAux f (n / 10)) * 10 + digitVal (Nat.digitChar (n % 10)) := by
        rw [parseNat, parseNat, List.foldl_append]
        rfl
      rw [hstep, hrec, digitVal_digitChar _ (Nat.mod_lt _ (by omega))]
      omega

theorem natStr_inj : ∀ m n : Nat, natStr m = natStr n → m = n := by
  intro m n h
  have hd : natStrAux (m + 1) m = natStrAux (n + 1) n := congrArg String.data h
  have hp := congrArg parseNat hd
  rw [parse_natStrAux _ _ (by omega), parse_natStrAux _ _ (by omega)] at hp
  exact hp

theorem boolStr_no_sep : ∀ b : Bool, '_' ∉ (boolStr b).data ∧ ':' ∉ (boolStr b).data := by
  decide

theorem boolStr_inj : ∀ a b : Bool, boolStr a = boolStr b → a = b := by
  decide

theorem joinColon_no_mem : ∀ (ids : List String) (ch : Char), ch ≠ ':' →
    (∀ x ∈ ids, ch ∉ x.data) → ch ∉ (joinColon ids).data := by
  intro ids
  induction ids with
  | nil => intro ch _ _ h; simp [joinColon] at h
  | cons x xs ih =>
    intro ch hch hall
    cases xs with
    | nil =>
      intro h
      exact hall x (List.mem_cons_self _ _) (by simpa [joinColon] using h)
    | cons y ys =>
      intro h
      rw [show joinColon (x :: y :: ys) = x ++ (":" ++ joinColon (y :: ys)) from rfl] at h
      rw [String.data_append, String.data_append] at h
      rcases List.mem_append.mp h with h | h
      · exact hall x (List.mem_cons_self _ _) h
      · rcases List.mem_append.mp h with h | h
        · simp at h
          exact hch h
        · exact ih ch hch (fun z hz => hall z (List.mem_cons_of_mem _ hz)) h

theorem joinColon_inj : ∀ l₁ l₂ : List String,
    (∀ x ∈ l₁, x ≠ "" ∧ ':' ∉ x.data) → (∀ x ∈ l₂, x ≠ "" ∧ ':' ∉ x.data) →
    joinColon l₁ = joinColon l₂ → l₁ = l₂ := by
  intro l₁
  induction l₁ with
  | nil =>
    intro l₂ _ h2 h
    cases l₂ with
    | nil => rfl
    | cons y ys =>
      exfalso
      cases ys with
      | nil => exact (h2 y (List.mem_cons_self _ _)).1 (by simpa [joinColon] using h.symm)
      | cons z zs =>
        have hd := congrArg String.data h
        rw [show joinColon (y :: z :: zs) = y ++ (":" ++ joinColon (z :: zs)) from rfl] at hd
        rw [String.data_append, String.data_append] at hd
        have hy := (h2 y (List.mem_cons_self _ _)).1
        cases hyd : y.data with
        | nil => exact hy (strExt (by simp [hyd]))
        | cons c cs => simp [joinColon, hyd] at hd
  | cons x xs ih =>
    intro l₂ h1 h2 h
    cases l₂ with
    | nil =>
      exfalso
      cases xs with
      | nil => exact (h1 x (List.mem_cons_self _ _)).1 (by simpa [joinColon] using h)
      | cons w ws =>
        have hd := congrArg String.data h
        rw [show joinColon (x :: w :: ws) = x ++ (":" ++ joinColon (w :: ws)) from rfl] at hd
        rw [String.data_append, String.data_append] at hd
        have hx := (h1 x (List.mem_cons_self _ _)).1
        cases hxd : x.data with
        | nil => exact hx (strExt (by simp [hxd]))
        | cons c cs => simp [joinColon, hxd] at hd
    | cons y ys =>
      cases xs with
      | nil =>
        cases ys with
        | nil =>
          have : x = y := by simpa [joinColon] using h
          rw [this]
        | cons z zs =>
          exfalso
          rw [show joinColon [x] = x from rfl,
            show joinColon (y :: z :: zs) = y ++ (":" ++ joinColon (z :: zs)) from rfl] at h
          have : ':' ∈ x.data := by
            rw [h, String.data_append, String.data_append]
            simp
          exact (h1 x (List.mem_cons_self _ _)).2 this
      | cons w ws =>
        cases ys with
        | nil =>
          exfalso
          rw [show joinColon [y] = y from rfl,
            show joinColon (x :: w :: ws) = x ++ (":" ++ joinColon (w :: ws)) from rfl] at h
          have : ':' ∈ y.data := by
            rw [← h, String.data_append, String.data_append]
            simp
          exact (h2 y (List.mem_cons_self _ _)).2 this
        | cons z zs =>
          rw [show joinColon (x :: w :: ws) = x ++ (":" ++ joinColon (w :: ws)) from rfl,
            show joinColon (y :: z :: zs) = y ++ (":" ++ joinColon (z :: zs)) from rfl] at h
          obtain ⟨rfl, hrest⟩ := strSep_split ':' ":" rfl x y _ _
            (h1 x (List.mem_cons_self _ _)).2 (h2 y (List.mem_cons_self _ _)).2 h
          have := ih (z :: zs) (fun a ha => h1 a (List.mem_cons_of_mem _ ha))
            (fun a ha => h2 a (List.mem_cons_of_mem _ ha)) hrest
          rw [this]

/-- C6 counterexample: the id-list separator is ambiguous — an id containing
":" makes two distinct id lists derive the same cache key. -/
theorem cacheKey_separator_collision :
    getVersionsByIDKey ["a:b"] = getVersionsByIDKey ["a", "b"]
    ∧ (["a:b"] : List String) ≠ ["a", "b"] := by
  constructor
  · decide
  · decide

/-- C6 (amended): cache-key derivation is injective only for parameter values
free of the separator characters — id lists of nonempty ids without ":" (and,
for keys also joined with "_", without "_"), and string parameters without
"_"; under those provisos two different parameter tuples of the same operation
derive different keys (so "A" and "AB" never collide), and keys of different
operations never collide at all. -/
theorem cacheKey_injective_amended :
    ∀ (ids₁ ids₂ : List String) (m₁ m₂ : String) (l₁ o₁ l₂ o₂ : Nat)
      (ob₁ od₁ ob₂ od₂ : String) (u₁ u₂ : Bool) (mods₁ mods₂ : List String),
      ((∀ x ∈ ids₁, x ≠ "" ∧ ':' ∉ x.data) → (∀ x ∈ ids₂, x ≠ "" ∧ ':' ∉ x.data) →
        getVersionsByIDKey ids₁ = getVersionsByIDKey ids₂ → ids₁ = ids₂)
      ∧ ('_' ∉ m₁.data → '_' ∉ m₂.data → '_' ∉ ob₁.data → '_' ∉ ob₂.data →
        '_' ∉ od₁.data → '_' ∉ od₂.data →
        getModVersionsKey m₁ l₁ o₁ ob₁ od₁ u₁ = getModVersionsKey m₂ l₂ o₂ ob₂ od₂ u₂ →
        m₁ = m₂ ∧ l₁ = l₂ ∧ o₁ = o₂ ∧ ob₁ = ob₂ ∧ od₁ = od₂ ∧ u₁ = u₂)
      ∧ ((∀ x ∈ mods₁, x ≠ "" ∧ ':' ∉ x.data ∧ '_' ∉ x.data) →
        (∀ x ∈ mods₂, x ≠ "" ∧ ':' ∉ x.data ∧ '_' ∉ x.data) →
        getModsLatestVersionsKey mods₁ u₁ = getModsLatestVersionsKey mods₂ u₂ →
        mods₁ = mods₂ ∧ u₁ = u₂)
      ∧ getVersionsByIDKey ids₁ ≠ getModVersionsKey m₁ l₁ o₁ ob₁ od₁ u₁
      ∧ getVersionsByIDKey ids₁ ≠ getModsLatestVersionsKey mods₁ u₁
      ∧ getModVersionsKey m₁ l₁ o₁ ob₁ od₁ u₁ ≠ getModsLatestVersionsKey mods₁ u₁ := by
  intro ids₁ ids₂ m₁ m₂ l₁ o₁ l₂ o₂ ob₁ od₁ ob₂ od₂ u₁ u₂ mods₁ mods₂
  refine ⟨?_, ?_, ?_, ?_, ?_, ?_⟩
  · intro h1 h2 h
    exact joinColon_inj ids₁ ids₂ h1 h2 (strAppend_left_cancel h)
  · intro hm₁ hm₂ hob₁ hob₂ hod₁ hod₂ h
    have h0 := strAppend_left_cancel h
    obtain ⟨hm, h1⟩ := strSep_split '_' "_" rfl _ _ _ _ hm₁ hm₂ h0
    obtain ⟨hl, h2⟩ := strSep_split '_' "_" rfl _ _ _ _ (natStr_no_sep l₁).1
      (natStr_no_sep l₂).1 h1
    obtain ⟨ho, h3⟩ := strSep_split '_' "_" rfl _ _ _ _ (natStr_no_sep o₁).1
      (natStr_no_sep o₂).1 h2
    obtain ⟨hob, h4⟩ := strSep_split '_' "_" rfl _ _ _ _ hob₁ hob₂ h3
    obtain ⟨hod, h5⟩ := strSep_split '_' "_" rfl _ _ _ _ hod₁ hod₂ h4
    exact ⟨hm, natStr_inj _ _ hl, natStr_inj _ _ ho, hob, hod, boolStr_inj _ _ h5⟩
  · intro h1 h2 h
    have h0 := strAppend_left_cancel h
    have hj₁ : '_' ∉ (joinColon mods₁).data :=
      joinColon_no_mem mods₁ '_' (by decide) (fun x hx => (h1 x hx).2.2)
    have hj₂ : '_' ∉ (joinColon mods₂).data :=
      joinColon_no_mem mods₂ '_' (by decide) (fun x hx => (h2 x hx).2.2)
    obtain ⟨hj, hb⟩ := strSep_split '_' "_" rfl _ _ _ _ hj₁ hj₂ h0
    exact ⟨joinColon_inj mods₁ mods₂ (fun x hx => ⟨(h1 x hx).1, (h1 x hx).2.1⟩)
      (fun x hx => ⟨(h2 x hx).1, (h2 x hx).2.1⟩) hj, boolStr_inj _ _ hb⟩
  · exact strPrefix_ne "GetVersionsById_" "GetModVersions_" 3 (by decide) (by decide)
      (by decide) _ _
  · exact strPrefix_ne "GetVersionsById_" "GetModsLatestVersions_" 3 (by decide) (by decide)
      (by decide) _ _
  · exact strPrefix_ne "GetModVersions_" "GetModsLatestVersions_" 6 (by decide) (by decide)
      (by decide) _ _

/-- Concrete instantiation of the key-injectivity theorem: parents "A" and
"AB" derive different GetModVersions keys, and the ByID and GetModVersions
operations never share a key. -/
theorem cacheKey_injective_amended_witness :
    getModVersionsKey "A" 1 0 "downloads" "asc" false
      ≠ getModVersionsKey "AB" 1 0 "downloads" "asc" false
    ∧ getVersionsByIDKey ["A"] ≠ getModVersionsKey "A" 1 0 "downloads" "asc" false := by
  constructor
  · intro h
    have hres := (cacheKey_injective_amended ["A"] ["A"] "A" "AB" 1 0 1 0 "downloads"
      "asc" "downloads" "asc" false false ["A"] ["A"]).2.1 (by decide) (by decide)
      (by decide) (by decide) (by decide) (by decide) h
    exact absurd hres.1 (by decide)
  · exact (cacheKey_injective_amended ["A"] ["A"] "A" "AB" 1 0 1 0 "downloads"
      "asc" "downloads" "asc" false false ["A"] ["A"]).2.2.2.1

/-! C8: which operations go through the read-through cache. -/

theorem cachedRows_hit (c : Cache) (k : String) (f : Unit → List Version) (l : List Version)
    (h : cacheGet c k = some (.rows l)) : cachedRows c k f = (l, c) := by
  rw [cachedRows, h]

theorem cachedRows_miss (c : Cache) (k : String) (f : Unit → List Version)
    (h : cacheGet c k = none) : cachedRows c k f = (f (), cacheSet c k (.rows (f ()))) := by
  rw [cachedRows, h]

theorem cachedCnt_hit (c : Cache) (k : String) (f : Unit → Nat) (n : Nat)
    (h : cacheGet c k = some (.cnt n)) : cachedCnt c k f = (n, c) := by
  rw [cachedCnt, h]

theorem cachedCnt_miss (c : Cache) (k : String) (f : Unit → Nat)
    (h : cacheGet c k = none) : cachedCnt c k f = (f (), cacheSet c k (.cnt (f ()))) := by
  rw [cachedCnt, h]

theorem cachedRow_hit (c : Cache) (k : String) (f : Unit → Option Version) (v : Version)
    (h : cacheGet c k = some (.one v)) : cachedRow c k f = (some v, c) := by
  rw [cachedRow, h]

theorem cachedRow_miss_none (c : Cache) (k : String) (f : Unit → Option Version)
    (h : cacheGet c k = none) (hf : f () = none) : cachedRow c k f = (none, c) := by
  rw [cachedRow, h, hf]

theorem cachedRow_miss_some (c : Cache) (k : String) (f : Unit → Option Version) (v : Version)
    (h : cacheGet c k = none) (hf : f () = some v) (hid : v.id ≠ "") :
    cachedRow c k f = (some v, cacheSet c k (.one v)) := by
  have hfalse : (v.id == "") = false := by simpa using hid
  rw [cachedRow, h, hf]
  simp [hfalse]

/-- C8 (amended): the operations that consult the read-through cache — a hit
under the derived key short-circuits unchanged, a miss stores the fresh store
result under that key — are GetVersionsByID (which caches only a complete
result), GetModLatestVersions, GetModsLatestVersions, GetModVersions,
GetModVersionsNew (on hash success), GetModVersion, GetModVersionByName,
GetVersion and, of the filtered reads, GetVersionsNew and GetVersionCountNew
(the three single-row reads cache only a resolving row).  GetVersions,
GetVersionCount and GetVersionDependencies always query the store fresh with
neither cache read nor write, and create bypasses the cache entirely. -/
theorem cache_protocol_per_operation :
    ∀ (db : List Version) (c : Cache) (ids modIds : List String)
      (modID versionID versionName : String) (limit offsetN : Nat)
      (orderBy ord search : String) (u : Bool) (filter : Option VersionFilter)
      (hash : String) (hashFn : HashFn) (s : St) (now : Int) (draft : Version)
      (newId : String),
      (∀ l, cacheGet c (getVersionsByIDKey ids) = some (.rows l) →
        GetVersionsByID db c ids = (some l, c))
      ∧ (cacheGet c (getVersionsByIDKey ids) = none →
        GetVersionsByID db c ids = (none, c)
        ∨ GetVersionsByID db c ids = (some (GetVersionsByIDQuery db ids),
          cacheSet c (getVersionsByIDKey ids) (.rows (GetVersionsByIDQuery db ids))))
      ∧ (∀ l, cacheGet c (getModLatestVersionsKey modID u) = some (.rows l) →
        GetModLatestVersions db c modID u = (l, c))
      ∧ (cacheGet c (getModLatestVersionsKey modID u) = none →
        GetModLatestVersions db c modID u = (GetModLatestVersionsQuery db modID u,
          cacheSet c (getModLatestVersionsKey modID u)
            (.rows (GetModLatestVersionsQuery db modID u))))
      ∧ (∀ l, cacheGet c (getModsLatestVersionsKey modIds u) = some (.rows l) →
        GetModsLatestVersions db c modIds u = (l, c))
      ∧ (cacheGet c (getModsLatestVersionsKey modIds u) = none →
        GetModsLatestVersions db c modIds u = (GetModsLatestVersionsQuery db modIds u,
          cacheSet c (getModsLatestVersionsKey modIds u)
            (.rows (GetModsLatestVersionsQuery db modIds u))))
      ∧ (∀ l, cacheGet c (getModVersionsKey modID limit offsetN orderBy ord u)
            = some (.rows l) →
        GetModVersions db c modID limit offsetN orderBy ord u = (l, c))
      ∧ (cacheGet c (getModVersionsKey modID limit offsetN orderBy ord u) = none →
        GetModVersions db c modID limit offsetN orderBy ord u
          = (GetModVersionsQuery db modID limit offsetN orderBy ord u,
            cacheSet c (getModVersionsKey modID limit offsetN orderBy ord u)
              (.rows (GetModVersionsQuery db modID limit offsetN orderBy ord u))))
      ∧ (hashFn filter = .ok hash → ∀ l,
        cacheGet c ("GetModVersionsNew_" ++ (modID ++ ("_" ++ (hash ++ ("_" ++ boolStr u)))))
          = some (.rows l) →
        GetModVersionsNew hashFn db c modID filter u = (l, c))
      ∧ (hashFn filter = .ok hash →
        cacheGet c ("GetModVersionsNew_" ++ (modID ++ ("_" ++ (hash ++ ("_" ++ boolStr u)))))
          = none →
        GetModVersionsNew hashFn db c modID filter u
          = (GetModVersionsNewQuery db modID filter u,
            cacheSet c ("GetModVersionsNew_" ++ (modID ++ ("_" ++ (hash ++ ("_" ++ boolStr u)))))
              (.rows (GetModVersionsNewQuery db modID filter u))))
      ∧ (∀ v, cacheGet c ("GetModVersion_" ++ (modID ++ ("_" ++ versionID)))
            = some (.one v) →
        GetModVersion db c modID versionID = (some v, c))
      ∧ (cacheGet c ("GetModVersion_" ++ (modID ++ ("_" ++ versionID))) = none →
        ∀ v, db.find? (fun v => (v.modID == modID) && (v.id == versionID)) = some v →
          v.id ≠ "" →
        GetModVersion db c modID versionID
          = (some v, cacheSet c ("GetModVersion_" ++ (modID ++ ("_" ++ versionID))) (.one v)))
      ∧ (cacheGet c ("GetModVersion_" ++ (modID ++ ("_" ++ versionID))) = none →
        db.find? (fun v => (v.modID == modID) && (v.id == versionID)) = none →
        GetModVersion db c modID versionID = (none, c))
      ∧ (∀ v, cacheGet c ("GetModVersionByName_" ++ (modID ++ ("_" ++ versionName)))
            = some (.one v) →
        GetModVersionByName db c modID versionName = (some v, c))
      ∧ (cacheGet c ("GetModVersionByName_" ++ (modID ++ ("_" ++ versionName))) = none →
        ∀ v, db.find? (fun v => (v.modID == modID) && (v.version == versionName)) = some v →
          v.id ≠ "" →
        GetModVersionByName db c modID versionName
          = (some v,
            cacheSet c ("GetModVersionByName_" ++ (modID ++ ("_" ++ versionName))) (.one v)))
      ∧ (cacheGet c ("GetModVersionByName_" ++ (modID ++ ("_" ++ versionName))) = none →
        db.find? (fun v => (v.modID == modID) && (v.version == versionName)) = none →
        GetModVersionByName db c modID versionName = (none, c))
      ∧ (∀ v, cacheGet c ("GetVersion_" ++ versionID) = some (.one v) →
        GetVersion db c versionID = (some v, c))
      ∧ (cacheGet c ("GetVersion_" ++ versionID) = none →
        ∀ v, db.find? (fun v => v.id == versionID) = some v → v.id ≠ "" →
        GetVersion db c versionID
          = (some v, cacheSet c ("GetVersion_" ++ versionID) (.one v)))
      ∧ (cacheGet c ("GetVersion_" ++ versionID) = none →
        db.find? (fun v => v.id == versionID) = none →
        GetVersion db c versionID = (none, c))
      ∧ (hashFn filter = .ok hash → ∀ l,
        cacheGet c ("GetVersionsNew_" ++ (hash ++ ("_" ++ boolStr u))) = some (.rows l) →
        GetVersionsNew hashFn db c filter u = (l, c))
      ∧ (hashFn filter = .ok hash →
        cacheGet c ("GetVersionsNew_" ++ (hash ++ ("_" ++ boolStr u))) = none →
        GetVersionsNew hashFn db c filter u
          = (GetVersionsNewQuery db filter u,
            cacheSet c ("GetVersionsNew_" ++ (hash ++ ("_" ++ boolStr u)))
              (.rows (GetVersionsNewQuery db filter u))))
      ∧ (hashFn filter = .ok hash → ∀ n,
        cacheGet c ("GetVersionCountNew_" ++ (hash ++ ("_" ++ boolStr u))) = some (.cnt n) →
        GetVersionCountNew hashFn db c filter u = (n, c))
      ∧ (hashFn filter = .ok hash →
        cacheGet c ("GetVersionCountNew_" ++ (hash ++ ("_" ++ boolStr u))) = none →
        GetVersionCountNew hashFn db c filter u
          = (GetVersionCountNewQuery db filter u,
            cacheSet c ("GetVersionCountNew_" ++ (hash ++ ("_" ++ boolStr u)))
              (.cnt (GetVersionCountNewQuery db filter u))))
      ∧ stepGetVersions s limit offsetN orderBy ord search u = s
      ∧ stepGetVersionCount s search u = s
      ∧ stepGetVersionDependencies s versionID = s
      ∧ (stepCreate s now draft newId).cache = s.cache := by
  intro db c ids modIds modID versionID versionName limit offsetN orderBy ord search u
    filter hash hashFn s now draft newId
  refine ⟨?_, ?_, ?_, ?_, ?_, ?_, ?_, ?_, ?_, ?_, ?_, ?_, ?_, ?_, ?_, ?_, ?_, ?_, ?_,
    ?_, ?_, ?_, ?_, ?_, ?_, ?_, ?_⟩
  · intro l h
    rw [GetVersionsByID]
    simp only [h]
  · intro h
    rw [GetVersionsByID]
    simp only [h]
    by_cases hlen : ids.length ≠ (GetVersionsByIDQuery db ids).length
    · rw [if_pos hlen]
      exact Or.inl rfl
    · rw [if_neg hlen]
      exact Or.inr rfl
  · intro l h
    exact cachedRows_hit _ _ _ _ h
  · intro h
    exact cachedRows_miss _ _ _ h
  · intro l h
    exact cachedRows_hit _ _ _ _ h
  · intro h
    exact cachedRows_miss _ _ _ h
  · intro l h
    exact cachedRows_hit _ _ _ _ h
  · intro h
    exact cachedRows_miss _ _ _ h
  · intro hok l h
    rw [GetModVersionsNew, hok]
    exact cachedRows_hit _ _ _ _ h
  · intro hok h
    rw [GetModVersionsNew, hok]
    exact cachedRows_miss _ _ _ h
  · intro v h
    exact cachedRow_hit _ _ _ _ h
  · intro h v hf hid
    exact cachedRow_miss_some _ _ _ _ h hf hid
  · intro h hf
    exact cachedRow_miss_none _ _ _ h hf
  · intro v h
    exact cachedRow_hit _ _ _ _ h
  · intro h v hf hid
    exact cachedRow_miss_some _ _ _ _ h hf hid
  · intro h hf
    exact cachedRow_miss_none _ _ _ h hf
  · intro v h
    exact cachedRow_hit _ _ _ _ h
  · intro h v hf hid
    exact cachedRow_miss_some _ _ _ _ h hf hid
  · intro h hf
    exact cachedRow_miss_none _ _ _ h hf
  · intro hok l h
    rw [GetVersionsNew, hok]
    exact cachedRows_hit _ _ _ _ h
  · intro hok h
    rw [GetVersionsNew, hok]
    exact cachedRows_miss _ _ _ h
  · intro hok n h
    rw [GetVersionCountNew, hok]
    exact cachedCnt_hit _ _ _ _ h
  · intro hok h
    rw [GetVersionCountNew, hok]
    exact cachedCnt_miss _ _ _ h
  · rfl
  · rfl
  · rfl
  · rw [stepCreate]
    cases CreateVersion s.db now draft newId <;> rfl

/-- C8 counterexample: a GetVersions request returns a nonempty fresh result,
yet the cache stays empty — the operation neither consults nor fills the
read-through cache, and neither does GetVersionCount. -/
theorem getVersions_not_cached_counterexample :
    GetVersionsQuery [mkV "v1" "m" "1.0.0" 1000] 10 0 "created_at" "asc" "" false
      = [mkV "v1" "m" "1.0.0" 1000]
    ∧ (stepGetVersions ⟨[mkV "v1" "m" "1.0.0" 1000], [], [], []⟩ 10 0 "created_at" "asc"
        "" false).cache = []
    ∧ GetVersionCountQuery [mkV "v1" "m" "1.0.0" 1000] "" false = 1
    ∧ (stepGetVersionCount ⟨[mkV "v1" "m" "1.0.0" 1000], [], [], []⟩ "" false).cache = [] := by
  refine ⟨by decide, rfl, by decide, rfl⟩

/-- Concrete instantiation of the cache-protocol theorem: a hit returns the
cached rows untouched, a miss computes and stores under the derived key. -/
theorem cache_protocol_per_operation_witness :
    GetModLatestVersions [] [(getModLatestVersionsKey "m" false, .rows [vUnapp])] "m" false
      = ([vUnapp], [(getModLatestVersionsKey "m" false, .rows [vUnapp])])
    ∧ GetModLatestVersions [] [] "m" false
      = (GetModLatestVersionsQuery [] "m" false,
        cacheSet [] (getModLatestVersionsKey "m" false)
          (.rows (GetModLatestVersionsQuery [] "m" false))) :=
  ⟨(cache_protocol_per_operation [] [(getModLatestVersionsKey "m" false, .rows [vUnapp])]
      [] [] "m" "" "" 0 0 "" "" "" false none "" (fun _ => .error ()) ⟨[], [], [], []⟩ 0
      (mkV "" "" "" 0) "").2.2.1 [vUnapp] (by rw [cacheGet, if_pos (by simp)]),
   (cache_protocol_per_operation [] [] [] [] "m" "" "" 0 0 "" "" "" false none ""
      (fun _ => .error ()) ⟨[], [], [], []⟩ 0 (mkV "" "" "" 0) "").2.2.2.1 rfl⟩

/-! C7, C4: the download-increment path and counter monotonicity. -/

theorem cacheGet_set_self (c : Cache) (k : String) (v : CVal) :
    cacheGet (cacheSet c k v) k = some v := by
  rw [cacheSet, cacheGet, if_pos (by simp)]

theorem cachedRows_snd (c : Cache) (k : String) (f : Unit → List Version) :
    (cachedRows c k f).2 = c ∨ (cachedRows c k f).2 = cacheSet c k (.rows (f ())) := by
  rw [cachedRows]
  rcases hc : cacheGet c k with _ | cv
  · exact Or.inr rfl
  · cases cv with
    | one v => exact Or.inr rfl
    | rows l => exact Or.inl rfl
    | cnt n => exact Or.inr rfl

theorem cachedCnt_snd (c : Cache) (k : String) (f : Unit → Nat) :
    (cachedCnt c k f).2 = c ∨ (cachedCnt c k f).2 = cacheSet c k (.cnt (f ())) := by
  rw [cachedCnt]
  rcases hc : cacheGet c k with _ | cv
  · exact Or.inr rfl
  · cases cv with
    | one v => exact Or.inr rfl
    | rows l => exact Or.inr rfl
    | cnt n => exact Or.inl rfl

theorem cachedRow_cases (c : Cache) (k : String) (f : Unit → Option Version) :
    (∃ v, cacheGet c k = some (.one v) ∧ cachedRow c k f = (some v, c))
    ∨ (f () = none ∧ cachedRow c k f = (none, c))
    ∨ (∃ v, f () = some v ∧ v.id = "" ∧ cachedRow c k f = (none, c))
    ∨ (∃ v, f () = some v ∧ v.id ≠ "" ∧ cachedRow c k f = (some v, cacheSet c k (.one v))) := by
  have hcompute : cacheGet c k = none ∨ (∃ l, cacheGet c k = some (.rows l))
      ∨ (∃ n, cacheGet c k = some (.cnt n)) →
      (f () = none ∧ cachedRow c k f = (none, c))
      ∨ (∃ v, f () = some v ∧ v.id = "" ∧ cachedRow c k f = (none, c))
      ∨ (∃ v, f () = some v ∧ v.id ≠ "" ∧ cachedRow c k f = (some v, cacheSet c k (.one v))) := by
    intro hc
    rcases hf : f () with _ | v
    · refine Or.inl ⟨rfl, ?_⟩
      rcases hc with hc | ⟨l, hc⟩ | ⟨n, hc⟩ <;> simp [cachedRow, hc, hf]
    · by_cases hid : (v.id == "") = true
      · refine Or.inr (Or.inl ⟨v, rfl, by simpa using hid, ?_⟩)
        rcases hc with hc | ⟨l, hc⟩ | ⟨n, hc⟩ <;> simp [cachedRow, hc, hf, hid]
      · refine Or.inr (Or.inr ⟨v, rfl, by simpa using hid, ?_⟩)
        rcases hc with hc | ⟨l, hc⟩ | ⟨n, hc⟩ <;> simp [cachedRow, hc, hf, hid]
  rcases hc : cacheGet c k with _ | cv
  · exact Or.inr (hcompute (Or.inl hc))
  · cases cv with
    | one v => exact Or.inl ⟨v, rfl, by simp [cachedRow, hc]⟩
    | rows l => exact Or.inr (hcompute (Or.inr (Or.inl ⟨l, hc⟩)))
    | cnt n => exact Or.inr (hcompute (Or.inr (Or.inr ⟨n, hc⟩)))

theorem cachedRow_snd (c : Cache) (k : String) (f : Unit → Option Version) :
    (cachedRow c k f).2 = c
    ∨ ∃ v, f () = some v ∧ (cachedRow c k f).2 = cacheSet c k (.one v) := by
  rcases cachedRow_cases c k f with ⟨v, _, h⟩ | ⟨_, h⟩ | ⟨v, _, _, h⟩ | ⟨v, hf, _, h⟩
  · exact Or.inl (by rw [h])
  · exact Or.inl (by rw [h])
  · exact Or.inl (by rw [h])
  · exact Or.inr ⟨v, hf, by rw [h]⟩

theorem cachedRow_none_snd (c : Cache) (k : String) (f : Unit → Option Version) (c' : Cache)
    (h : cachedRow c k f = (none, c')) : c' = c := by
  rcases cachedRow_cases c k f with ⟨v, _, h2⟩ | ⟨_, h2⟩ | ⟨v, _, _, h2⟩ | ⟨v, _, _, h2⟩
  · rw [h] at h2
    exact absurd (congrArg Prod.fst h2) (by simp)
  · rw [h] at h2
    exact congrArg Prod.snd h2
  · rw [h] at h2
    exact congrArg Prod.snd h2
  · rw [h] at h2
    exact absurd (congrArg Prod.fst h2) (by simp)

theorem findRow_append_of_some (db l : List Version) (id : String) (w : Version)
    (h : findRow db id = some w) : findRow (db ++ l) id = some w := by
  induction db with
  | nil => exact absurd h (by simp [findRow])
  | cons a t ih =>
    rw [findRow] at h ⊢
    rw [List.cons_append]
    by_cases hp : (a.id == id) = true
    · rw [@List.find?_cons_of_pos Version (fun v => v.id == id) a t hp] at h
      rw [@List.find?_cons_of_pos Version (fun v => v.id == id) a (t ++ l) hp]
      exact h
    · rw [@List.find?_cons_of_neg Version (fun v => v.id == id) a t (by simpa using hp)] at h
      rw [@List.find?_cons_of_neg Version (fun v => v.id == id) a (t ++ l) (by simpa using hp)]
      exact ih h

theorem findRow_increment (db : List Version) (ver : Version) (id : String) :
    findRow (IncrementVersionDownloads db ver) id
      = (findRow db id).map
          (fun w => if w.id == ver.id then { w with downloads := ver.downloads + 1 } else w) := by
  induction db with
  | nil => rfl
  | cons a t ih =>
    rw [IncrementVersionDownloads, List.map_cons, findRow, findRow]
    have hid : ((if (a.id == ver.id) = true then { a with downloads := ver.downloads + 1 }
        else a) : Version).id = a.id := by
      by_cases hv : (a.id == ver.id) = true
      · rw [if_pos hv]
      · rw [if_neg hv]
    by_cases hp : (a.id == id) = true
    · rw [@List.find?_cons_of_pos Version (fun v => v.id == id)
        (if (a.id == ver.id) = true then { a with downloads := ver.downloads + 1 } else a)
        (List.map (fun w => if (w.id == ver.id) = true then { w with downloads := ver.downloads + 1 } else w) t)
        (by
          by_cases hv : (a.id == ver.id) = true
          · rw [if_pos hv]; exact hp
          · rw [if_neg hv]; exact hp)]
      rw [@List.find?_cons_of_pos Version (fun v => v.id == id) a t hp]
      rfl
    · rw [@List.find?_cons_of_neg Version (fun v => v.id == id)
        (if (a.id == ver.id) = true then { a with downloads := ver.downloads + 1 } else a)
        (List.map (fun w => if (w.id == ver.id) = true then { w with downloads := ver.downloads + 1 } else w) t)
        (by
          by_cases hv : (a.id == ver.id) = true
          · rw [if_pos hv]; exact hp
          · rw [if_neg hv]; exact hp)]
      rw [@List.find?_cons_of_neg Version (fun v => v.id == id) a t (by simpa using hp)]
      rw [IncrementVersionDownloads, findRow, findRow] at ih
      exact ih

/-- Cache changes that cannot break the GetVersion-entry invariant: no change,
or an insert of a row-list or count value under any key, or an insert of a
single row under a key of a different operation. -/
theorem inv_of_cache_change (s : St) (c' : Cache) (lim' : List (String × String × String))
    (h : Inv s)
    (hc : c' = s.cache
      ∨ (∃ k l, c' = cacheSet s.cache k (CVal.rows l))
      ∨ (∃ k n, c' = cacheSet s.cache k (CVal.cnt n))
      ∨ (∃ k w, (∀ id, k ≠ "GetVersion_" ++ id) ∧ c' = cacheSet s.cache k (CVal.one w))) :
    Inv { s with cache := c', limiter := lim' } := by
  intro id v hv
  rcases hc with rfl | ⟨k, l, rfl⟩ | ⟨k, n, rfl⟩ | ⟨k, w, hk, rfl⟩
  · exact h id v hv
  · rw [cacheSet, cacheGet] at hv
    by_cases hkk : (k == ("GetVersion_" ++ id)) = true
    · rw [if_pos hkk] at hv
      exact absurd (Option.some.inj hv) (by simp)
    · rw [if_neg hkk] at hv
      exact h id v hv
  · rw [cacheSet, cacheGet] at hv
    by_cases hkk : (k == ("GetVersion_" ++ id)) = true
    · rw [if_pos hkk] at hv
      exact absurd (Option.some.inj hv) (by simp)
    · rw [if_neg hkk] at hv
      exact h id v hv
  · rw [cacheSet, cacheGet] at hv
    by_cases hkk : (k == ("GetVersion_" ++ id)) = true
    · exact absurd (eq_of_beq hkk) (hk id)
    · rw [if_neg hkk] at hv
      exact h id v hv

theorem getModVersionKey_ne (m vid id : String) :
    "GetModVersion_" ++ (m ++ ("_" ++ vid)) ≠ "GetVersion_" ++ id :=
  strPrefix_ne "GetModVersion_" "GetVersion_" 3 (by decide) (by decide) (by decide) _ _

theorem getModVersionByNameKey_ne (m vn id : String) :
    "GetModVersionByName_" ++ (m ++ ("_" ++ vn)) ≠ "GetVersion_" ++ id :=
  strPrefix_ne "GetModVersionByName_" "GetVersion_" 3 (by decide) (by decide) (by decide) _ _

/-- What a successful GetVersion implies in an invariant state: the returned
row has the requested id, the stored row's counter is the returned counter or
one ahead of it, and the cache either already held the row or was just filled
with the freshly read row. -/
theorem getVersion_some_spec (s : St) (vid : String) (v : Version) (c' : Cache)
    (h : Inv s) (hgv : GetVersion s.db s.cache vid = (some v, c')) :
    v.id = vid
    ∧ (∃ w0, findRow s.db vid = some w0
        ∧ (w0.downloads = v.downloads ∨ w0.downloads = v.downloads + 1))
    ∧ ((c' = s.cache ∧ cacheGet s.cache ("GetVersion_" ++ vid) = some (.one v))
      ∨ (c' = cacheSet s.cache ("GetVersion_" ++ vid) (.one v)
        ∧ findRow s.db vid = some v)) := by
  rw [GetVersion] at hgv
  rcases cachedRow_cases s.cache ("GetVersion_" ++ vid)
      (fun _ => s.db.find? (fun v => v.id == vid)) with
    ⟨u, hc, h2⟩ | ⟨_, h2⟩ | ⟨u, _, _, h2⟩ | ⟨u, hf, _, h2⟩
  · rw [h2] at hgv
    have h1 : some u = some v := congrArg Prod.fst hgv
    have h3 : s.cache = c' := congrArg Prod.snd hgv
    obtain rfl := Option.some.inj h1
    obtain ⟨hvid, w0, hw0, hcl⟩ := h vid u hc
    exact ⟨hvid, ⟨w0, hw0, hcl⟩, Or.inl ⟨h3.symm, hc⟩⟩
  · rw [h2] at hgv
    exact absurd (congrArg Prod.fst hgv) (by simp)
  · rw [h2] at hgv
    exact absurd (congrArg Prod.fst hgv) (by simp)
  · rw [h2] at hgv
    have h1 : some u = some v := congrArg Prod.fst hgv
    have h3 : cacheSet s.cache ("GetVersion_" ++ vid) (.one u) = c' :=
      congrArg Prod.snd hgv
    obtain rfl := Option.some.inj h1
    have hvid0 := @List.find?_some Version (fun w : Version => w.id == vid) u s.db hf
    have hvid : u.id = vid := eq_of_beq hvid0
    exact ⟨hvid, ⟨u, hf, Or.inl rfl⟩, Or.inr ⟨h3.symm, hf⟩⟩

/-- Filling the cache with a freshly read row keeps the invariant. -/
theorem inv_getVersion_fill (s : St) (c' : Cache)
    (lim' : List (String × String × String)) (vid : String) (v : Version) (h : Inv s)
    (hfr : findRow s.db vid = some v) (hvid : v.id = vid)
    (hc : c' = cacheSet s.cache ("GetVersion_" ++ vid) (CVal.one v)) :
    Inv { s with cache := c', limiter := lim' } := by
  subst hc
  intro id x hx
  rw [cacheSet, cacheGet] at hx
  by_cases hkk : (("GetVersion_" ++ vid) == ("GetVersion_" ++ id)) = true
  · rw [if_pos hkk] at hx
    have hxv : v = x := CVal.one.inj (Option.some.inj hx)
    obtain rfl := strAppend_left_cancel (eq_of_beq hkk)
    subst hxv
    exact ⟨hvid, v, hfr, Or.inl rfl⟩
  · rw [if_neg hkk] at hx
    exact h id x hx

/-- A download request keeps the invariant and never writes a smaller counter
than the one stored. -/
theorem download_preserves (s : St) (ip vid : String) (h : Inv s) :
    Inv (downloadVersion s ip vid).2
    ∧ ∀ id w w', findRow s.db id = some w →
        findRow (downloadVersion s ip vid).2.db id = some w' →
        w.downloads ≤ w'.downloads := by
  rcases hgv : GetVersion s.db s.cache vid with ⟨vOpt, c'⟩
  cases vOpt with
  | none =>
    have hc : c' = s.cache := by
      rw [GetVersion] at hgv
      exact cachedRow_none_snd _ _ _ _ hgv
    subst hc
    have hdl : downloadVersion s ip vid = (.notFound, s) := by
      rw [downloadVersion, hgv]
    rw [hdl]
    refine ⟨h, ?_⟩
    intro id w w' h1 h2
    rw [h1] at h2
    rw [Option.some.inj h2]
  | some v =>
    obtain ⟨hvid, ⟨w0, hw0, hcl⟩, hcs⟩ := getVersion_some_spec s vid v c' h hgv
    by_cases hct : s.limiter.contains (ip, "download", "version:" ++ vid) = true
    · have hci : CanIncrement s.limiter ip "download" ("version:" ++ vid)
          = (false, s.limiter) := by
        rw [CanIncrement, if_pos hct]
      have hdl : downloadVersion s ip vid = (.redirect (GenerateDownloadLink v.key), { s with db := s.db, cache := c', limiter := s.limiter }) := by
        rw [downloadVersion, hgv, hci]
        rfl
      rw [hdl]
      constructor
      · rcases hcs with ⟨rfl, _⟩ | ⟨hc, hfr⟩
        · exact inv_of_cache_change s s.cache s.limiter h (Or.inl rfl)
        · exact inv_getVersion_fill s c' s.limiter vid v h hfr hvid hc
      · intro id w w' h1 h2
        have h3 : findRow s.db id = some w' := h2
        rw [h1] at h3
        rw [Option.some.inj h3]
    · have hci : CanIncrement s.limiter ip "download" ("version:" ++ vid)
          = (true, (ip, "download", "version:" ++ vid) :: s.limiter) := by
        rw [CanIncrement, if_neg hct]
      have hdl : downloadVersion s ip vid = (.redirect (GenerateDownloadLink v.key), { s with db := IncrementVersionDownloads s.db v, cache := c', limiter := (ip, "download", "version:" ++ vid) :: s.limiter }) := by
        rw [downloadVersion, hgv, hci]
        rfl
      rw [hdl]
      constructor
      · intro id x hx
        have hold : cacheGet c' ("GetVersion_" ++ id) = some (.one x) → x.id = id
            ∧ ∃ w1, findRow s.db id = some w1
              ∧ (w1.downloads = x.downloads ∨ w1.downloads = x.downloads + 1)
            ∧ (id = vid → x = v) := by
          intro hx'
          rcases hcs with ⟨rfl, hhit⟩ | ⟨rfl, hfr⟩
          · obtain ⟨hxid, w1, hw1, hcl1⟩ := h id x hx'
            refine ⟨hxid, w1, hw1, hcl1, ?_⟩
            intro hiv
            rw [hiv] at hx'
            rw [hx'] at hhit
            exact CVal.one.inj (Option.some.inj hhit)
          · rw [cacheSet, cacheGet] at hx'
            by_cases hkk : (("GetVersion_" ++ vid) == ("GetVersion_" ++ id)) = true
            · rw [if_pos hkk] at hx'
              have hxv : v = x := CVal.one.inj (Option.some.inj hx')
              obtain rfl := strAppend_left_cancel (eq_of_beq hkk)
              subst hxv
              exact ⟨hvid, v, hfr, Or.inl rfl, fun _ => rfl⟩
            · rw [if_neg hkk] at hx'
              obtain ⟨hxid, w1, hw1, hcl1⟩ := h id x hx'
              refine ⟨hxid, w1, hw1, hcl1, ?_⟩
              intro hiv
              exact absurd (beq_iff_eq.mpr (by rw [hiv] :
                ("GetVersion_" ++ vid) = ("GetVersion_" ++ id))) hkk
        obtain ⟨hxid, w1, hw1, hcl1, hxeq⟩ := hold hx
        refine ⟨hxid, ?_⟩
        rw [findRow_increment, hw1]
        by_cases hwv : (w1.id == v.id) = true
        · have hw1id : w1.id = id := by
            have := @List.find?_some Version (fun t : Version => t.id == id) w1 s.db hw1
            exact eq_of_beq this
          have hiv : id = vid := by
            rw [← hw1id, eq_of_beq hwv, hvid]
          have hxv : x = v := hxeq hiv
          refine ⟨if (w1.id == v.id) = true then { w1 with downloads := v.downloads + 1 }
            else w1, rfl, ?_⟩
          rw [if_pos hwv]
          subst hxv
          rcases hcl1 with hcl1 | hcl1
          · exact Or.inr rfl
          · exact Or.inr rfl
        · refine ⟨if (w1.id == v.id) = true then { w1 with downloads := v.downloads + 1 }
            else w1, rfl, ?_⟩
          rw [if_neg hwv]
          exact hcl1
      · intro id w w' h1 h2
        have h2' : findRow (IncrementVersionDownloads s.db v) id = some w' := h2
        rw [findRow_increment, h1] at h2'
        simp only [Option.map_some'] at h2'
        have h3 := Option.some.inj h2'
        by_cases hwv : (w.id == v.id) = true
        · rw [if_pos hwv] at h3
          rw [← h3]
          have hwid : w.id = id := by
            have := @List.find?_some Version (fun t : Version => t.id == id) w s.db h1
            exact eq_of_beq this
          have hiv : id = vid := by
            rw [← hwid, eq_of_beq hwv, hvid]
          have hww0 : w = w0 := by
            rw [hiv] at h1
            rw [h1] at hw0
            exact Option.some.inj hw0
          rw [hww0]
          have hd : ({ w0 with downloads := v.downloads + 1 } : Version).downloads
              = v.downloads + 1 := rfl
          rw [hd]
          rcases hcl with hcl | hcl <;> omega
        · rw [if_neg hwv] at h3
          rw [← h3]

theorem GetVersionsByID_snd (db : List Version) (c : Cache) (ids : List String) :
    (GetVersionsByID db c ids).2 = c
    ∨ ∃ l, (GetVersionsByID db c ids).2 = cacheSet c (getVersionsByIDKey ids) (CVal.rows l) := by
  rw [GetVersionsByID]
  have hcompute :
      ((if ids.length ≠ (GetVersionsByIDQuery db ids).length
        then ((none : Option (List Version)), c)
        else (some (GetVersionsByIDQuery db ids),
          cacheSet c (getVersionsByIDKey ids) (.rows (GetVersionsByIDQuery db ids)))) :
        Option (List Version) × Cache).2 = c
      ∨ ∃ l, ((if ids.length ≠ (GetVersionsByIDQuery db ids).length
        then ((none : Option (List Version)), c)
        else (some (GetVersionsByIDQuery db ids),
          cacheSet c (getVersionsByIDKey ids) (.rows (GetVersionsByIDQuery db ids)))) :
        Option (List Version) × Cache).2 = cacheSet c (getVersionsByIDKey ids) (CVal.rows l) := by
    by_cases hl : ids.length ≠ (GetVersionsByIDQuery db ids).length
    · rw [if_pos hl]
      exact Or.inl rfl
    · rw [if_neg hl]
      exact Or.inr ⟨GetVersionsByIDQuery db ids, rfl⟩
  rcases hc : cacheGet c (getVersionsByIDKey ids) with _ | cv
  · exact hcompute
  · cases cv with
    | one v => exact hcompute
    | rows l => exact Or.inl rfl
    | cnt n => exact hcompute

theorem createVersion_ok_shape (db : List Version) (now : Int) (draft : Version)
    (newId : String) (db' : List Version)
    (h : CreateVersion db now draft newId = .ok db') :
    db' = db ++ [{ draft with id := newId, createdAt := now }] := by
  rw [CreateVersion] at h
  by_cases h1 : 0 < (db.filter (fun v => (v.modID == draft.modID)
      && (v.version == draft.version))).length
  · rw [if_pos h1] at h
    exact absurd h (by simp)
  · rw [if_neg h1] at h
    by_cases h2 : 5 ≤ (insSort createdLe (windowCounted db draft.modID now)).length
    · rw [if_pos h2] at h
      cases hh : (insSort createdLe (windowCounted db draft.modID now)).head? with
      | none =>
        rw [hh] at h
        exact absurd h (by simp)
      | some oldest =>
        rw [hh] at h
        exact absurd h (by simp)
    · rw [if_neg h2] at h
      exact (Except.ok.inj h).symm

/-- Trivial monotonicity when the step leaves the store untouched. -/
theorem mono_of_db_eq (db : List Version) :
    ∀ (id : String) (w w' : Version), findRow db id = some w → findRow db id = some w' →
      w.downloads ≤ w'.downloads := by
  intro id w w' h1 h2
  rw [h1] at h2
  rw [Option.some.inj h2]

/-- Every core operation preserves the invariant and never lowers a stored
download counter. -/
theorem step_preserves (s s' : St) (h : Inv s) (hs : Step s s') :
    Inv s' ∧ ∀ id w w', findRow s.db id = some w → findRow s'.db id = some w' →
      w.downloads ≤ w'.downloads := by
  cases hs with
  | create now draft newId fresh =>
    rw [stepCreate]
    cases hcr : CreateVersion s.db now draft newId with
    | error e => exact ⟨h, mono_of_db_eq s.db⟩
    | ok db' =>
      obtain rfl := createVersion_ok_shape s.db now draft newId db' hcr
      constructor
      · intro id x hx
        obtain ⟨hxid, w1, hw1, hcl1⟩ := h id x hx
        exact ⟨hxid, w1, findRow_append_of_some s.db _ id w1 hw1, hcl1⟩
      · intro id w w' h1 h2
        rw [findRow_append_of_some s.db _ id w h1] at h2
        rw [Option.some.inj h2]
  | download ip vid => exact download_preserves s ip vid h
  | getVersion vid =>
    rw [stepGetVersion, GetVersion]
    rcases cachedRow_cases s.cache ("GetVersion_" ++ vid)
        (fun _ => s.db.find? (fun v => v.id == vid)) with
      ⟨u, _, h2⟩ | ⟨_, h2⟩ | ⟨u, _, _, h2⟩ | ⟨u, hf, _, h2⟩
    · rw [h2]
      exact ⟨h, mono_of_db_eq s.db⟩
    · rw [h2]
      exact ⟨h, mono_of_db_eq s.db⟩
    · rw [h2]
      exact ⟨h, mono_of_db_eq s.db⟩
    · rw [h2]
      have hvid : u.id = vid :=
        eq_of_beq (@List.find?_some Version (fun w : Version => w.id == vid) u s.db hf)
      exact ⟨inv_getVersion_fill s _ s.limiter vid u h hf hvid rfl, mono_of_db_eq s.db⟩
  | getVersionsByID ids =>
    rw [stepGetVersionsByID]
    rcases GetVersionsByID_snd s.db s.cache ids with h2 | ⟨l, h2⟩
    · rw [h2]
      exact ⟨h, mono_of_db_eq s.db⟩
    · rw [h2]
      exact ⟨inv_of_cache_change s _ s.limiter h (Or.inr (Or.inl ⟨_, l, rfl⟩)),
        mono_of_db_eq s.db⟩
  | getModLatestVersions modID u =>
    rw [stepGetModLatestVersions, GetModLatestVersions]
    rcases cachedRows_snd s.cache (getModLatestVersionsKey modID u)
        (fun _ => GetModLatestVersionsQuery s.db modID u) with h2 | h2
    · rw [h2]
      exact ⟨h, mono_of_db_eq s.db⟩
    · rw [h2]
      exact ⟨inv_of_cache_change s _ s.limiter h (Or.inr (Or.inl ⟨_, _, rfl⟩)),
        mono_of_db_eq s.db⟩
  | getModsLatestVersions modIds u =>
    rw [stepGetModsLatestVersions, GetModsLatestVersions]
    rcases cachedRows_snd s.cache (getModsLatestVersionsKey modIds u)
        (fun _ => GetModsLatestVersionsQuery s.db modIds u) with h2 | h2
    · rw [h2]
      exact ⟨h, mono_of_db_eq s.db⟩
    · rw [h2]
      exact ⟨inv_of_cache_change s _ s.limiter h (Or.inr (Or.inl ⟨_, _, rfl⟩)),
        mono_of_db_eq s.db⟩
  | getModVersions modID limit offsetN orderBy ord u =>
    rw [stepGetModVersions, GetModVersions]
    rcases cachedRows_snd s.cache (getModVersionsKey modID limit offsetN orderBy ord u)
        (fun _ => GetModVersionsQuery s.db modID limit offsetN orderBy ord u) with h2 | h2
    · rw [h2]
      exact ⟨h, mono_of_db_eq s.db⟩
    · rw [h2]
      exact ⟨inv_of_cache_change s _ s.limiter h (Or.inr (Or.inl ⟨_, _, rfl⟩)),
        mono_of_db_eq s.db⟩
  | getModVersionsNew hashFn modID filter u =>
    rw [stepGetModVersionsNew, GetModVersionsNew]
    cases hh : hashFn filter with
    | error e => exact ⟨h, mono_of_db_eq s.db⟩
    | ok hash =>
      rcases cachedRows_snd s.cache
          ("GetModVersionsNew_" ++ (modID ++ ("_" ++ (hash ++ ("_" ++ boolStr u)))))
          (fun _ => GetModVersionsNewQuery s.db modID filter u) with h2 | h2
      · rw [h2]
        exact ⟨h, mono_of_db_eq s.db⟩
      · rw [h2]
        exact ⟨inv_of_cache_change s _ s.limiter h (Or.inr (Or.inl ⟨_, _, rfl⟩)),
          mono_of_db_eq s.db⟩
  | getModVersion modID vid =>
    rw [stepGetModVersion, GetModVersion]
    rcases cachedRow_snd s.cache ("GetModVersion_" ++ (modID ++ ("_" ++ vid)))
        (fun _ => s.db.find? (fun v => (v.modID == modID) && (v.id == vid))) with h2 | ⟨v, _, h2⟩
    · rw [h2]
      exact ⟨h, mono_of_db_eq s.db⟩
    · rw [h2]
      exact ⟨inv_of_cache_change s _ s.limiter h
        (Or.inr (Or.inr (Or.inr ⟨_, v, fun id => getModVersionKey_ne modID vid id, rfl⟩))),
        mono_of_db_eq s.db⟩
  | getModVersionByName modID vname =>
    rw [stepGetModVersionByName, GetModVersionByName]
    rcases cachedRow_snd s.cache ("GetModVersionByName_" ++ (modID ++ ("_" ++ vname)))
        (fun _ => s.db.find? (fun v => (v.modID == modID) && (v.version == vname))) with
      h2 | ⟨v, _, h2⟩
    · rw [h2]
      exact ⟨h, mono_of_db_eq s.db⟩
    · rw [h2]
      exact ⟨inv_of_cache_change s _ s.limiter h
        (Or.inr (Or.inr (Or.inr ⟨_, v, fun id => getModVersionByNameKey_ne modID vname id,
          rfl⟩))), mono_of_db_eq s.db⟩
  | getVersionsNew hashFn filter u =>
    rw [stepGetVersionsNew, GetVersionsNew]
    cases hh : hashFn filter with
    | error e => exact ⟨h, mono_of_db_eq s.db⟩
    | ok hash =>
      rcases cachedRows_snd s.cache ("GetVersionsNew_" ++ (hash ++ ("_" ++ boolStr u)))
          (fun _ => GetVersionsNewQuery s.db filter u) with h2 | h2
      · rw [h2]
        exact ⟨h, mono_of_db_eq s.db⟩
      · rw [h2]
        exact ⟨inv_of_cache_change s _ s.limiter h (Or.inr (Or.inl ⟨_, _, rfl⟩)),
          mono_of_db_eq s.db⟩
  | getVersionCountNew hashFn filter u =>
    rw [stepGetVersionCountNew, GetVersionCountNew]
    cases hh : hashFn filter with
    | error e => exact ⟨h, mono_of_db_eq s.db⟩
    | ok hash =>
      rcases cachedCnt_snd s.cache ("GetVersionCountNew_" ++ (hash ++ ("_" ++ boolStr u)))
          (fun _ => GetVersionCountNewQuery s.db filter u) with h2 | h2
      · rw [h2]
        exact ⟨h, mono_of_db_eq s.db⟩
      · rw [h2]
        exact ⟨inv_of_cache_change s _ s.limiter h (Or.inr (Or.inr (Or.inl ⟨_, _, rfl⟩))),
          mono_of_db_eq s.db⟩
  | getVersions limit offsetN orderBy ord search u => exact ⟨h, mono_of_db_eq s.db⟩
  | getVersionCount search u => exact ⟨h, mono_of_db_eq s.db⟩
  | getVersionDependencies vid => exact ⟨h, mono_of_db_eq s.db⟩

/-- Reachable states satisfy the invariant. -/
theorem inv_reachable (db0 : List Version) (deps0 : List VersionDependency) (s : St)
    (hr : Reachable (initialState db0 deps0) s) : Inv s := by
  induction hr with
  | refl =>
    intro id v hv
    simp [initialState, cacheGet] at hv
  | tail hr' hstep ih => exact (step_preserves _ _ ih hstep).1

/-- C7: along every reachable operation sequence from a fresh process (empty
cache and limiter over any store), no operation writes a downloads value
smaller than the one currently stored: the stored counter of every version is
monotonically non-decreasing across reads, creations and download increments,
cache hits and misses alike. -/
theorem downloads_monotone_reachable :
    ∀ (db0 : List Version) (deps0 : List VersionDependency) (s s' : St),
      Reachable (initialState db0 deps0) s → Step s s' →
      ∀ id w w', findRow s.db id = some w → findRow s'.db id = some w' →
        w.downloads ≤ w'.downloads := by
  intro db0 deps0 s s' hr hs
  exact (step_preserves s s' (inv_reachable db0 deps0 s hr) hs).2

/-- Concrete instantiation of counter monotonicity: one download step from a
fresh process raises the stored counter from 0 to 1, which does not decrease
it. -/
theorem downloads_monotone_reachable_witness :
    findRow (initialState [mkV "v1" "m" "1.0.0" 1000] []).db "v1"
      = some (mkV "v1" "m" "1.0.0" 1000)
    ∧ findRow (downloadVersion (initialState [mkV "v1" "m" "1.0.0" 1000] [])
        "1.2.3.4" "v1").2.db "v1" = some { mkV "v1" "m" "1.0.0" 1000 with downloads := 1 }
    ∧ (mkV "v1" "m" "1.0.0" 1000).downloads
        ≤ ({ mkV "v1" "m" "1.0.0" 1000 with downloads := 1 } : Version).downloads :=
  ⟨by decide, by decide,
   downloads_monotone_reachable [mkV "v1" "m" "1.0.0" 1000] [] _ _ (Reachable.refl _)
     (Step.download _ "1.2.3.4" "v1") "v1" _ _ (by decide) (by decide)⟩

/-- C4: in an invariant state, a download request whose version id does not
resolve returns 404 and leaves the whole state — limiter included — untouched;
a request whose id resolves always returns the redirect to the download link,
whether or not the limiter admits; and two requests with the same client
identity and version id (within the limiter window, which admitted keys never
leave) advance the stored counter by at most one in total. -/
theorem download_path_spec :
    ∀ (s : St) (realIP versionID : String), Inv s →
      ((GetVersion s.db s.cache versionID).1 = none →
        downloadVersion s realIP versionID = (.notFound, s))
      ∧ (∀ v, (GetVersion s.db s.cache versionID).1 = some v →
        (downloadVersion s realIP versionID).1 = .redirect (GenerateDownloadLink v.key))
      ∧ (∀ w w', findRow s.db versionID = some w →
        findRow (downloadVersion (downloadVersion s realIP versionID).2 realIP
          versionID).2.db versionID = some w' →
        w'.downloads ≤ w.downloads + 1) := by
  intro s ip vid hinv
  refine ⟨?_, ?_, ?_⟩
  · intro hn
    rcases hgv : GetVersion s.db s.cache vid with ⟨vOpt, c'⟩
    rw [hgv] at hn
    have hvn : vOpt = none := hn
    subst hvn
    have hc : c' = s.cache := by
      have hgv' := hgv
      rw [GetVersion] at hgv'
      exact cachedRow_none_snd _ _ _ _ hgv'
    subst hc
    rw [downloadVersion, hgv]
  · intro v hv
    rcases hgv : GetVersion s.db s.cache vid with ⟨vOpt, c'⟩
    rw [hgv] at hv
    have hvs : vOpt = some v := hv
    subst hvs
    rw [downloadVersion, hgv]
  · intro w w' h1 h2
    rcases hgv : GetVersion s.db s.cache vid with ⟨vOpt, c'⟩
    cases vOpt with
    | none =>
      have hc : c' = s.cache := by
        have hgv' := hgv
        rw [GetVersion] at hgv'
        exact cachedRow_none_snd _ _ _ _ hgv'
      subst hc
      have hdl : downloadVersion s ip vid = (.notFound, s) := by
        rw [downloadVersion, hgv]
      have h2' : findRow s.db vid = some w' := by
        rw [hdl] at h2
        have h2'' : findRow (downloadVersion s ip vid).2.db vid = some w' := h2
        rw [hdl] at h2''
        exact h2''
      rw [h1] at h2'
      rw [Option.some.inj h2']
      omega
    | some v =>
      obtain ⟨hvid, ⟨w0, hw0, hcl⟩, hcs⟩ := getVersion_some_spec s vid v c' hinv hgv
      have hww0 : w = w0 := by
        rw [h1] at hw0
        exact Option.some.inj hw0
      have hhit2 : cacheGet c' ("GetVersion_" ++ vid) = some (.one v) := by
        rcases hcs with ⟨rfl, hhit⟩ | ⟨rfl, _⟩
        · exact hhit
        · exact cacheGet_set_self _ _ _
      by_cases hct : s.limiter.contains (ip, "download", "version:" ++ vid) = true
      · have hci : CanIncrement s.limiter ip "download" ("version:" ++ vid)
            = (false, s.limiter) := by
          rw [CanIncrement, if_pos hct]
        have hdl : downloadVersion s ip vid = (.redirect (GenerateDownloadLink v.key), { s with db := s.db, cache := c', limiter := s.limiter }) := by
          rw [downloadVersion, hgv, hci]
          rfl
        have hdb1 : (downloadVersion s ip vid).2.db = s.db := by rw [hdl]
        have hcache1 : (downloadVersion s ip vid).2.cache = c' := by rw [hdl]
        have hlim1 : (downloadVersion s ip vid).2.limiter = s.limiter := by rw [hdl]
        have hgv2 : GetVersion (downloadVersion s ip vid).2.db
            (downloadVersion s ip vid).2.cache vid = (some v, c') := by
          rw [hdb1, hcache1, GetVersion]
          exact cachedRow_hit _ _ _ _ hhit2
        have hdl2 : downloadVersion (downloadVersion s ip vid).2 ip vid
            = (.redirect (GenerateDownloadLink v.key), { (downloadVersion s ip vid).2 with db := (downloadVersion s ip vid).2.db, cache := c', limiter := s.limiter }) := by
          rw [downloadVersion, hgv2, hlim1, hci]
          rfl
        have h2' : findRow (downloadVersion s ip vid).2.db vid = some w' := by
          rw [hdl2] at h2
          exact h2
        rw [hdb1, h1] at h2'
        rw [Option.some.inj h2']
        omega
      · have hci : CanIncrement s.limiter ip "download" ("version:" ++ vid)
            = (true, (ip, "download", "version:" ++ vid) :: s.limiter) := by
          rw [CanIncrement, if_neg hct]
        have hdl : downloadVersion s ip vid = (.redirect (GenerateDownloadLink v.key), { s with db := IncrementVersionDownloads s.db v, cache := c', limiter := (ip, "download", "version:" ++ vid) :: s.limiter }) := by
          rw [downloadVersion, hgv, hci]
          rfl
        have hdb1 : (downloadVersion s ip vid).2.db = IncrementVersionDownloads s.db v := by
          rw [hdl]
        have hcache1 : (downloadVersion s ip vid).2.cache = c' := by rw [hdl]
        have hlim1 : (downloadVersion s ip vid).2.limiter
            = (ip, "download", "version:" ++ vid) :: s.limiter := by rw [hdl]
        have hgv2 : GetVersion (downloadVersion s ip vid).2.db
            (downloadVersion s ip vid).2.cache vid = (some v, c') := by
          rw [hcache1, GetVersion]
          exact cachedRow_hit _ _ _ _ hhit2
        have hct2 : ((ip, "download", "version:" ++ vid) :: s.limiter).contains
            (ip, "download", "version:" ++ vid) = true := by simp
        have hci2 : CanIncrement ((ip, "download", "version:" ++ vid) :: s.limiter) ip
            "download" ("version:" ++ vid)
            = (false, (ip, "download", "version:" ++ vid) :: s.limiter) := by
          rw [CanIncrement, if_pos hct2]
        have hdl2 : downloadVersion (downloadVersion s ip vid).2 ip vid
            = (.redirect (GenerateDownloadLink v.key), { (downloadVersion s ip vid).2 with db := (downloadVersion s ip vid).2.db, cache := c', limiter := (ip, "download", "version:" ++ vid) :: s.limiter }) := by
          rw [downloadVersion, hgv2, hlim1, hci2]
          rfl
        have h2' : findRow (downloadVersion s ip vid).2.db vid = some w' := by
          rw [hdl2] at h2
          exact h2
        rw [hdb1] at h2'
        rw [findRow_increment, h1] at h2'
        simp only [Option.map_some'] at h2'
        have h3 := Option.some.inj h2'
        by_cases hwv : (w.id == v.id) = true
        · rw [if_pos hwv] at h3
          rw [← h3]
          have hd : ({ w with downloads := v.downloads + 1 } : Version).downloads
              = v.downloads + 1 := rfl
          rw [hd]
          rw [hww0]
          rcases hcl with hcl | hcl <;> omega
        · rw [if_neg hwv] at h3
          rw [← h3]
          omega

/-- Concrete instantiation of the download-path theorem: an unknown id is a
404 leaving the state alone; a known id redirects; two same-client downloads
advance the counter by at most one. -/
theorem download_path_spec_witness :
    downloadVersion (initialState [mkV "v1" "m" "1.0.0" 1000] []) "1.2.3.4" "zz"
      = (.notFound, initialState [mkV "v1" "m" "1.0.0" 1000] [])
    ∧ (downloadVersion (initialState [mkV "v1" "m" "1.0.0" 1000] []) "1.2.3.4" "v1").1
      = .redirect (GenerateDownloadLink (mkV "v1" "m" "1.0.0" 1000).key)
    ∧ ({ mkV "v1" "m" "1.0.0" 1000 with downloads := 1 } : Version).downloads
      ≤ (mkV "v1" "m" "1.0.0" 1000).downloads + 1 := by
  have hinv : Inv (initialState [mkV "v1" "m" "1.0.0" 1000] []) := by
    intro id v hv
    simp [initialState, cacheGet] at hv
  refine ⟨?_, ?_, ?_⟩
  · exact (download_path_spec (initialState [mkV "v1" "m" "1.0.0" 1000] []) "1.2.3.4" "zz"
      hinv).1 (by decide)
  · exact (download_path_spec (initialState [mkV "v1" "m" "1.0.0" 1000] []) "1.2.3.4" "v1"
      hinv).2.1 (mkV "v1" "m" "1.0.0" 1000) (by decide)
  · exact (download_path_spec (initialState [mkV "v1" "m" "1.0.0" 1000] []) "1.2.3.4" "v1"
      hinv).2.2 (mkV "v1" "m" "1.0.0" 1000)
      { mkV "v1" "m" "1.0.0" 1000 with downloads := 1 } (by decide) (by decide)

end SMR
